import Mathlib

/-!
Verification of the blockfile core (src/src-tauri/src/lib.rs) against its
natural-language specification.

The Rust source is shallowly embedded: strings are `List Char` (`Str`),
`f64` score/similarity arithmetic is modelled over `ℚ` (all claims proved
here compare identically-computed expressions, so the rounding of `f64`
cannot distinguish the two models), fallible commands return
`Except Str _`, and the SQLite database / filesystem are threaded as
explicit values.  Rust `char` classification (`char::is_alphanumeric`,
`char::to_lowercase`) is Unicode-table driven; it is modelled by an
explicit `CharModel`, with a concrete instance `rustChars` that agrees
with Rust on every character appearing in this development.
-/

/-- Rust `&str` values are modelled as lists of characters. -/
abbrev Str := List Char

namespace BlockFile

/-! ## Character model

Rust's `char::is_alphanumeric` and `char::to_lowercase` are driven by the
Unicode tables of the Rust standard library.  They are modelled by a pair of
functions; `rustChars` below instantiates them faithfully for every character
used in this file. -/

/-- A model of the Rust character classification functions used by
`normalize_for_search`: `isAlnum c` models `c.is_alphanumeric()` and
`toLower c` models the character sequence produced by `c.to_lowercase()`. -/
structure CharModel where
  isAlnum : Char → Bool
  toLower : Char → List Char

/-- Faithful instance of `CharModel` for the characters appearing in this
development: on ASCII, Rust `char::is_alphanumeric` is exactly
`Char.isAlphanum` and `char::to_lowercase` is the one-character ASCII
lowercase map.  Beyond ASCII: U+00E9 (é) and U+0130 (İ) have the Unicode
Alphabetic property, U+0307 COMBINING DOT ABOVE does not (general category
Mn and not Other_Alphabetic), and `'İ'.to_lowercase()` yields the two
characters "i" followed by U+0307 per Unicode SpecialCasing (this is the
worked example in the Rust documentation of `str::to_lowercase`). -/
def rustChars : CharModel where
  isAlnum c := c.isAlphanum || c = 'é' || c = 'İ'
  toLower c := if c = 'İ' then ['i', '̇'] else [c.toLower]

/-- Models Rust `char::is_whitespace` (the Unicode White_Space property) on
the characters used in this development; every non-ASCII character appearing
here lacks the property, so only the ASCII whitespace characters and the two
Latin-1 White_Space code points are listed. -/
def rust_is_whitespace (c : Char) : Bool :=
  c = ' ' || c = '\t' || c = '\n' || c = '\x0b' || c = '\x0c' || c = '\r' ||
    c = '\u0085' || c = ' '

/-- Models Rust `str::trim`: removes leading and trailing whitespace. -/
def rust_trim (s : Str) : Str :=
  (s.dropWhile rust_is_whitespace).reverse.dropWhile rust_is_whitespace |>.reverse

/-- Models Rust `str::split_whitespace`: the maximal non-whitespace runs. -/
def split_whitespace (s : Str) : List Str :=
  (s.splitOnP rust_is_whitespace).filter (· ≠ [])

/-- Models Rust `str::contains(&str)`: substring containment. -/
def contains_sub (hay pat : Str) : Bool :=
  match hay with
  | [] => pat.isEmpty
  | _ :: t => pat.isPrefixOf hay || contains_sub t pat

/-- Models Rust `str::len()`: the length in UTF-8 bytes. -/
def utf8_len (s : Str) : Nat :=
  (s.map Char.utf8Size).sum

/-- The loop body of `normalize_for_search` (lib.rs): the accumulator is
the output built so far and the `previous_space` flag. -/
def normalize_step (M : CharModel) (acc : Str × Bool) (c : Char) : Str × Bool :=
  if M.isAlnum c then
    (acc.1 ++ M.toLower c, false)
  else if !acc.2 then
    (acc.1 ++ [' '], true)
  else
    acc

/-- `normalize_for_search` (lib.rs): lowercase alphanumeric characters are
kept (each through the character model's `toLower` expansion), every other
character becomes a single space with adjacent runs collapsed, and the
result is trimmed. -/
def normalize_for_search (M : CharModel) (text : Str) : Str :=
  rust_trim (text.foldl (normalize_step M) ([], false)).1

/-- `contains_year_token` (lib.rs): the text, split on non-ASCII-digit
characters, contains a 4-digit token parsing to a year in 1900..=2099. -/
def contains_year_token (text : Str) : Bool :=
  (text.splitOnP (fun c => !c.isDigit)).any fun token =>
    token.length = 4 &&
      (let year := token.foldl (fun n c => n * 10 + (c.toNat - '0'.toNat)) 0
       1900 ≤ year && year ≤ 2099)

/-- `is_probable_author_line` (lib.rs): 3–90 normalized words, a year token,
and (≥ 2 commas in the raw text, or a bibliographic marker, or an URL/DOI
marker) together with ≥ 5 words. -/
def is_probable_author_line (M : CharModel) (text : Str) : Bool :=
  let normalized := normalize_for_search M text
  if normalized.isEmpty then false
  else
    let word_count := (split_whitespace normalized).length
    if !(3 ≤ word_count && word_count ≤ 90) then false
    else if !contains_year_token normalized then false
    else
      let comma_count := (text.filter (· = ',')).length
      let has_source_marker :=
        contains_sub normalized "journal".data ||
        contains_sub normalized "university".data ||
        contains_sub normalized "postdoctoral".data ||
        contains_sub normalized "vol ".data ||
        contains_sub normalized "edition".data ||
        contains_sub normalized "press".data ||
        contains_sub normalized "retrieved".data ||
        contains_sub normalized "archive".data
      let looks_like_url_line :=
        contains_sub normalized "http".data || contains_sub normalized "doi".data
      (2 ≤ comma_count || has_source_marker || looks_like_url_line) && 5 ≤ word_count

/-! ## Levenshtein distance and fuzzy similarity

`normalized_levenshtein_similarity` (lib.rs) computes the edit distance with
a two-row dynamic program over the character vectors and returns
`1 - distance / max_len` as `f64`; the `f64` arithmetic is modelled over
`ℚ`.  `lev_row_rest`/`lev_next_row`/`lev_rows` transcribe the two-row loop;
`levRec` is the textbook recursion used only to reason about the loop. -/

/-- Textbook Levenshtein recursion (deletion, insertion, substitution with
unit costs), used as the specification of the two-row loop below. -/
def levRec : Str → Str → Nat
  | [], ys => ys.length
  | x :: xs, [] => (x :: xs).length
  | x :: xs, y :: ys =>
    min (min (levRec xs (y :: ys) + 1) (levRec (x :: xs) ys + 1))
      (levRec xs ys + (if x = y then 0 else 1))

/-- The inner loop of `normalized_levenshtein_similarity`: given the current
left character `x`, the remaining right characters, the entry just written
to `current_row`, the entry of `previous_row` at the same position, and the
remaining entries of `previous_row`, produce the remaining entries of
`current_row` (`deletion.min(insertion).min(substitution)`). -/
def lev_row_rest (x : Char) : Str → Nat → Nat → List Nat → List Nat
  | y :: ys, cur, prevj, pj1 :: prest =>
    let c := min (min (pj1 + 1) (cur + 1)) (prevj + (if x = y then 0 else 1))
    c :: lev_row_rest x ys c pj1 prest
  | _, _, _, _ => []

/-- One iteration of the outer loop: build `current_row` from
`previous_row`.  The source writes `current_row[0] = left_index + 1`, and
`previous_row[0]` always equals `left_index`, so the head is `p0 + 1`. -/
def lev_next_row (x : Char) (ys : Str) (prev : List Nat) : List Nat :=
  match prev with
  | [] => []
  | p0 :: prest => (p0 + 1) :: lev_row_rest x ys (p0 + 1) p0 prest

/-- The full two-row dynamic program: start from `(0..=right_len)` and fold
the outer loop over the left characters; returns the final `previous_row`. -/
def lev_rows (xs ys : Str) : List Nat :=
  xs.foldl (fun prev x => lev_next_row x ys prev) (List.range (ys.length + 1))

/-- `previous_row[right_len]` after the loop: the edit distance. -/
def edit_distance (xs ys : Str) : Nat :=
  (lev_rows xs ys).getD ys.length 0

/-- Specification of a row tail: the distances from `a` to the reversed
prefixes of `r` extended along `ys`. -/
def prefix_dists (a : Str) (r : Str) : Str → List Nat
  | [] => []
  | y :: ys => levRec a (y :: r) :: prefix_dists a (y :: r) ys

/-- Specification of a full row for left part `a` (stored reversed). -/
def row_spec (a ys : Str) : List Nat :=
  levRec a [] :: prefix_dists a [] ys

theorem levRec_nil_left (ys : Str) : levRec [] ys = ys.length := by
  simp [levRec]

theorem levRec_nil_right : ∀ xs : Str, levRec xs [] = xs.length := by
  intro xs
  cases xs <;> simp [levRec]

theorem levRec_cons_cons (x y : Char) (xs ys : Str) :
    levRec (x :: xs) (y :: ys) =
      min (min (levRec xs (y :: ys) + 1) (levRec (x :: xs) ys + 1))
        (levRec xs ys + (if x = y then 0 else 1)) := by
  simp [levRec]

theorem lev_row_rest_cons (x y : Char) (ys : Str) (cur prevj pj1 : Nat)
    (prest : List Nat) :
    lev_row_rest x (y :: ys) cur prevj (pj1 :: prest) =
      (min (min (pj1 + 1) (cur + 1)) (prevj + (if x = y then 0 else 1))) ::
        lev_row_rest x ys (min (min (pj1 + 1) (cur + 1))
          (prevj + (if x = y then 0 else 1))) pj1 prest := by
  simp [lev_row_rest]

theorem prefix_dists_cons (a r : Str) (y : Char) (ys : Str) :
    prefix_dists a r (y :: ys) =
      levRec a (y :: r) :: prefix_dists a (y :: r) ys := by
  simp [prefix_dists]

theorem lev_row_rest_spec (x : Char) (a : Str) :
    ∀ (ys r : Str),
      lev_row_rest x ys (levRec (x :: a) r) (levRec a r) (prefix_dists a r ys) =
        prefix_dists (x :: a) r ys := by
  intro ys
  induction ys with
  | nil => intro r; simp [prefix_dists, lev_row_rest]
  | cons y ys ih =>
    intro r
    rw [prefix_dists_cons, lev_row_rest_cons, prefix_dists_cons,
      ← levRec_cons_cons, ih (y :: r)]

theorem lev_next_row_spec (x : Char) (a ys : Str) :
    lev_next_row x ys (row_spec a ys) = row_spec (x :: a) ys := by
  rw [row_spec, row_spec, lev_next_row]
  have h0 : levRec a [] + 1 = levRec (x :: a) [] := by
    rw [levRec_nil_right, levRec_nil_right, List.length_cons]
  rw [h0, lev_row_rest_spec x a ys []]

theorem prefix_dists_nil_left : ∀ (ys r : Str),
    prefix_dists [] r ys = (List.range ys.length).map (fun k => r.length + k + 1)
  | [], _ => by simp [prefix_dists]
  | y :: ys, r => by
    rw [prefix_dists_cons, levRec_nil_left, prefix_dists_nil_left ys (y :: r),
      List.length_cons, List.length_cons, List.range_succ_eq_map,
      List.map_cons, List.map_map]
    congr 1
    apply List.map_congr_left
    intro k _
    simp [Function.comp]
    omega

theorem range_eq_row_spec (ys : Str) :
    List.range (ys.length + 1) = row_spec [] ys := by
  rw [row_spec, prefix_dists_nil_left, List.range_succ_eq_map, levRec_nil_left]
  congr 1
  apply List.map_congr_left
  intro k _
  simp

theorem lev_rows_spec (xs ys : Str) :
    lev_rows xs ys = row_spec xs.reverse ys := by
  have main : ∀ (rest p : Str),
      rest.foldl (fun prev x => lev_next_row x ys prev) (row_spec p ys) =
        row_spec (rest.reverse ++ p) ys := by
    intro rest
    induction rest with
    | nil => intro p; simp
    | cons x rest ih =>
      intro p
      rw [List.foldl_cons, lev_next_row_spec, ih (x :: p)]
      simp
  rw [lev_rows, range_eq_row_spec, main xs []]
  simp

theorem row_spec_getD (a : Str) : ∀ (ys r : Str),
    (levRec a r :: prefix_dists a r ys).getD ys.length 0 =
      levRec a (ys.reverse ++ r)
  | [], _ => by simp
  | y :: ys, r => by
    rw [prefix_dists_cons, List.length_cons]
    have : (levRec a r :: levRec a (y :: r) :: prefix_dists a (y :: r) ys).getD
        (ys.length + 1) 0 =
        (levRec a (y :: r) :: prefix_dists a (y :: r) ys).getD ys.length 0 := rfl
    rw [this, row_spec_getD a ys (y :: r)]
    simp

theorem edit_distance_eq (xs ys : Str) :
    edit_distance xs ys = levRec xs.reverse ys.reverse := by
  rw [edit_distance, lev_rows_spec, row_spec]
  have := row_spec_getD xs.reverse ys []
  simpa using this

theorem levRec_symm : ∀ xs ys : Str, levRec xs ys = levRec ys xs := by
  intro xs
  induction xs with
  | nil => intro ys; rw [levRec_nil_right, levRec_nil_left]
  | cons x xs ih1 =>
    intro ys
    induction ys with
    | nil => rw [levRec_nil_right, levRec_nil_left]
    | cons y ys ih2 =>
      rw [levRec_cons_cons, levRec_cons_cons]
      rw [ih1 (y :: ys), ih2, ih1 ys]
      rw [show (if x = y then 0 else 1) = (if y = x then 0 else 1 : Nat) from by
        by_cases h : x = y
        · rw [if_pos h, if_pos h.symm]
        · rw [if_neg h, if_neg (fun hyx => h hyx.symm)]]
      rw [min_comm (levRec (y :: ys) xs + 1) (levRec ys (x :: xs) + 1)]

theorem edit_distance_symm (xs ys : Str) :
    edit_distance xs ys = edit_distance ys xs := by
  rw [edit_distance_eq, edit_distance_eq, levRec_symm]

/-- `normalized_levenshtein_similarity` (lib.rs): early 0 for an empty side,
1 for equal inputs, otherwise `1 - edit_distance / max_len`.  The source
re-checks the collected character vectors for emptiness; the check is kept
although it is unreachable. -/
def normalized_levenshtein_similarity (left right : Str) : ℚ :=
  if left.isEmpty || right.isEmpty then 0
  else if left = right then 1
  else if left.length = 0 || right.length = 0 then 0
  else 1 - (edit_distance left right : ℚ) / (max left.length right.length : ℚ)

theorem normalized_levenshtein_similarity_symm (a b : Str) :
    normalized_levenshtein_similarity a b = normalized_levenshtein_similarity b a := by
  rw [normalized_levenshtein_similarity, normalized_levenshtein_similarity]
  by_cases ha : a.isEmpty = true
  · simp [ha]
  · by_cases hb : b.isEmpty = true
    · simp [hb]
    · simp only [ha, hb, Bool.or_false, Bool.false_or,
        Bool.false_eq_true, if_false]
      by_cases he : a = b
      · subst he; simp
      · have hla : a.length ≠ 0 := by
          cases a with
          | nil => exact absurd rfl ha
          | cons x xs => simp
        have hlb : b.length ≠ 0 := by
          cases b with
          | nil => exact absurd rfl hb
          | cons x xs => simp
        have h1 : (decide (a.length = 0) || decide (b.length = 0)) = false := by
          simp [hla, hlb]
        have h2 : (decide (b.length = 0) || decide (a.length = 0)) = false := by
          simp [hla, hlb]
        rw [if_neg he]
        conv_rhs => rw [if_neg (fun h : b = a => he h.symm)]
        rw [h1, h2]
        simp only [Bool.false_eq_true, if_false]
        rw [edit_distance_symm a b, max_comm ((a.length : ℚ)) ((b.length : ℚ))]

/-- The token-pair loop of `fuzzy_similarity`: running maximum of the
normalized Levenshtein similarity over all pairs of tokens (the source's
`best_token_similarity` accumulator, with its `let similarity` inlined). -/
def best_token_similarity (qts cts : List Str) : ℚ :=
  qts.foldl (fun best qt =>
    cts.foldl (fun b ct =>
      if normalized_levenshtein_similarity qt ct > b
      then normalized_levenshtein_similarity qt ct else b) best) 0

/-- `fuzzy_similarity` (lib.rs): 0 for an empty side, 0.96 / 0.88 for the
containment shortcuts, otherwise `0.72·edit + 0.28·best_token`. -/
def fuzzy_similarity (query candidate : Str) : ℚ :=
  if query.isEmpty || candidate.isEmpty then 0
  else if contains_sub candidate query then 96 / 100
  else if contains_sub query candidate then 88 / 100
  else
    normalized_levenshtein_similarity query candidate * (72 / 100) +
      best_token_similarity (split_whitespace query) (split_whitespace candidate) *
        (28 / 100)

theorem foldl_max_inner (g : Str → ℚ) :
    ∀ (l : List Str) (z : ℚ),
      l.foldl (fun b ct => if g ct > b then g ct else b) z =
        (l.map g).foldl max z := by
  intro l
  induction l with
  | nil => intro z; rfl
  | cons c cs ihc =>
    intro z
    rw [List.foldl_cons, List.map_cons, List.foldl_cons, ihc]
    have : (if g c > z then g c else z) = max z (g c) := by
      by_cases h : g c > z
      · rw [if_pos h, max_eq_right (le_of_lt h)]
      · rw [if_neg h, max_eq_left (le_of_not_lt h)]
    rw [this]

theorem foldl_max_flatten (f : Str → Str → ℚ) :
    ∀ (qts : List Str) (cts : List Str) (z : ℚ),
      qts.foldl (fun best qt => cts.foldl (fun b ct =>
          if f qt ct > b then f qt ct else b) best) z =
        (qts.map (fun qt => cts.map (f qt))).flatten.foldl max z := by
  intro qts
  induction qts with
  | nil => intro cts z; rfl
  | cons qt qts ih =>
    intro cts z
    rw [List.foldl_cons, List.map_cons, List.flatten_cons, List.foldl_append, ih,
      foldl_max_inner (f qt)]

theorem le_foldl_max : ∀ (l : List ℚ) (z : ℚ), z ≤ l.foldl max z := by
  intro l
  induction l with
  | nil => intro z; exact le_refl z
  | cons a l ih =>
    intro z
    exact le_trans (le_max_left z a) (ih (max z a))

theorem mem_le_foldl_max : ∀ (l : List ℚ) (z a : ℚ), a ∈ l → a ≤ l.foldl max z := by
  intro l
  induction l with
  | nil => intro z a h; cases h
  | cons b l ih =>
    intro z a h
    rcases List.mem_cons.mp h with h | h
    · subst h
      exact le_trans (le_max_right z a) (le_foldl_max l (max z a))
    · exact ih (max z b) a h

theorem foldl_max_le : ∀ (l : List ℚ) (z x : ℚ), z ≤ x → (∀ a ∈ l, a ≤ x) →
    l.foldl max z ≤ x := by
  intro l
  induction l with
  | nil => intro z x hz _; exact hz
  | cons b l ih =>
    intro z x hz hl
    exact ih (max z b) x (max_le hz (hl b (List.mem_cons_self b l)))
      (fun a ha => hl a (List.mem_cons_of_mem b ha))

theorem best_token_similarity_symm (qts cts : List Str) :
    best_token_similarity qts cts = best_token_similarity cts qts := by
  have mem_vals : ∀ (l1 l2 : List Str) (v : ℚ),
      v ∈ (l1.map (fun a => l2.map (normalized_levenshtein_similarity a))).flatten ↔
        ∃ a ∈ l1, ∃ b ∈ l2, v = normalized_levenshtein_similarity a b := by
    intro l1 l2 v
    simp only [List.mem_flatten, List.mem_map]
    constructor
    · rintro ⟨_, ⟨a, ha, rfl⟩, hv⟩
      rcases List.mem_map.mp hv with ⟨b, hb, rfl⟩
      exact ⟨a, ha, b, hb, rfl⟩
    · rintro ⟨a, ha, b, hb, rfl⟩
      exact ⟨l2.map (normalized_levenshtein_similarity a), ⟨a, ha, rfl⟩,
        List.mem_map.mpr ⟨b, hb, rfl⟩⟩
  have half : ∀ (l1 l2 : List Str),
      (l1.map (fun a => l2.map (normalized_levenshtein_similarity a))).flatten.foldl max 0 ≤
        (l2.map (fun a => l1.map (normalized_levenshtein_similarity a))).flatten.foldl max 0 := by
    intro l1 l2
    apply foldl_max_le _ _ _ (le_foldl_max _ 0)
    intro v hv
    rcases (mem_vals l1 l2 v).mp hv with ⟨a, ha, b, hb, rfl⟩
    rw [normalized_levenshtein_similarity_symm]
    exact mem_le_foldl_max _ 0 _ ((mem_vals l2 l1 _).mpr ⟨b, hb, a, ha, rfl⟩)
  rw [best_token_similarity, best_token_similarity,
    foldl_max_flatten normalized_levenshtein_similarity,
    foldl_max_flatten normalized_levenshtein_similarity]
  exact le_antisymm (half qts cts) (half cts qts)

theorem contains_sub_self : ∀ s : Str, contains_sub s s = true := by
  intro s
  cases s with
  | nil => rfl
  | cons a t =>
    rw [contains_sub]
    have : (a :: t).isPrefixOf (a :: t) = true := by
      induction t with
      | nil => simp [List.isPrefixOf]
      | cons b t ih =>
        simp_all [List.isPrefixOf]
    rw [this]
    rfl

theorem fuzzy_similarity_symm (q c : Str)
    (hcq : contains_sub c q = false) (hqc : contains_sub q c = false) :
    fuzzy_similarity q c = fuzzy_similarity c q := by
  rw [fuzzy_similarity, fuzzy_similarity, Bool.or_comm c.isEmpty]
  by_cases h0 : (q.isEmpty || c.isEmpty) = true
  · rw [if_pos h0, if_pos h0]
  · rw [if_neg h0, if_neg h0, hcq, hqc]
    simp only [Bool.false_eq_true, if_false]
    rw [normalized_levenshtein_similarity_symm, best_token_similarity_symm]

/-! ## Parsed paragraphs, heading classification and heading ranges -/

/-- `ParsedParagraph` (lib.rs): the in-memory paragraph record produced by
`parse_docx_paragraphs`. -/
structure ParsedParagraph where
  order : Int
  text : Str
  heading_level : Option Int
  style_label : Option Str
  is_f8_cite : Bool
deriving DecidableEq, Inhabited

/-- The heading-suppression step of `parse_docx_paragraphs` (lib.rs): after
`detect_heading_level`, a detected level is cleared when the paragraph is an
F8-cite or its text passes the author heuristic. -/
def suppress_heading_level (M : CharModel) (detected : Option Int)
    (text : Str) (is_f8_cite : Bool) : Option Int :=
  match detected with
  | some level =>
    if is_probable_author_line M text || is_f8_cite then none else some level
  | none => none

/-- `extract_author_candidates` (lib.rs): paragraphs passing the author
heuristic, deduplicated on normalized text, capped at 120 entries.  The
`seen` set and accumulator of the source loop are the explicit state. -/
def extract_author_candidates (M : CharModel) (paragraphs : List ParsedParagraph) :
    List (Int × Str) :=
  let step := fun (acc : List Str × List (Int × Str)) (p : ParsedParagraph) =>
    if !is_probable_author_line M p.text then acc
    else
      let normalized := normalize_for_search M p.text
      if normalized.isEmpty || acc.1.contains normalized then acc
      else if 120 ≤ acc.2.length then acc
      else (normalized :: acc.1, acc.2 ++ [(p.order, p.text)])
  (paragraphs.foldl step ([], [])).2

/-- `extract_docx_headings_and_authors` (lib.rs), applied to an
already-parsed paragraph list (the zip/XML reading done by
`parse_docx_paragraphs` is outside the embedding): the headings are the
paragraphs carrying a level, the authors come from
`extract_author_candidates`. -/
def extract_docx_headings_and_authors (M : CharModel)
    (paragraphs : List ParsedParagraph) :
    List (Int × Int × Str) × List (Int × Str) :=
  (paragraphs.filterMap (fun p =>
      p.heading_level.map (fun level => (p.order, level, p.text))),
    extract_author_candidates M paragraphs)

/-- `HeadingRange` (lib.rs). -/
structure HeadingRange where
  order : Int
  level : Int
  start_index : Nat
  end_index : Nat
deriving DecidableEq

/-- The heading positions of the paragraph array (the `heading_indices`
vector of `build_heading_ranges`). -/
def heading_indices (paragraphs : List ParsedParagraph) : List Nat :=
  (List.range paragraphs.length).filter fun i =>
    ((paragraphs.getD i default).heading_level).isSome

/-- The forward scan of `build_heading_ranges` (lib.rs): the first later
heading that is not author-like and has level ≤ `level` bounds the range;
otherwise the range runs to the end of the paragraph array. -/
def find_range_end (M : CharModel) (paragraphs : List ParsedParagraph)
    (level : Int) : List Nat → Nat
  | [] => paragraphs.length
  | c :: rest =>
    match (paragraphs.getD c default).heading_level with
    | some candidate_level =>
      if is_probable_author_line M (paragraphs.getD c default).text then
        find_range_end M paragraphs level rest
      else if candidate_level ≤ level then c
      else find_range_end M paragraphs level rest
    | none => find_range_end M paragraphs level rest

/-- `build_heading_ranges` (lib.rs). -/
def build_heading_ranges (M : CharModel) (paragraphs : List ParsedParagraph) :
    List HeadingRange :=
  let his := heading_indices paragraphs
  (List.range his.length).filterMap fun position =>
    let start_index := his.getD position 0
    match (paragraphs.getD start_index default).heading_level with
    | some level =>
      some { order := (paragraphs.getD start_index default).order
             level := level
             start_index := start_index
             end_index := find_range_end M paragraphs level (his.drop (position + 1)) }
    | none => none

theorem mem_heading_indices {paragraphs : List ParsedParagraph} {i : Nat} :
    i ∈ heading_indices paragraphs ↔
      i < paragraphs.length ∧
        ((paragraphs.getD i default).heading_level).isSome = true := by
  rw [heading_indices, List.mem_filter, List.mem_range]

theorem find_range_end_cases (M : CharModel) (paragraphs : List ParsedParagraph)
    (level : Int) : ∀ l : List Nat,
      find_range_end M paragraphs level l = paragraphs.length ∨
        find_range_end M paragraphs level l ∈ l := by
  intro l
  induction l with
  | nil => left; rfl
  | cons c rest ih =>
    cases hl : ((paragraphs.getD c default).heading_level) with
    | none =>
      simp only [find_range_end, hl]
      rcases ih with h | h
      · left; exact h
      · right; exact List.mem_cons_of_mem c h
    | some candidate_level =>
      simp only [find_range_end, hl]
      by_cases hauthor : is_probable_author_line M (paragraphs.getD c default).text = true
      · rw [if_pos hauthor]
        rcases ih with h | h
        · left; exact h
        · right; exact List.mem_cons_of_mem c h
      · rw [if_neg hauthor]
        by_cases hle : candidate_level ≤ level
        · rw [if_pos hle]; right; exact List.mem_cons_self c rest
        · rw [if_neg hle]
          rcases ih with h | h
          · left; exact h
          · right; exact List.mem_cons_of_mem c h

theorem range_at_position_mem (M : CharModel) (paragraphs : List ParsedParagraph)
    {position start_index : Nat} {level : Int}
    (hpos : position < (heading_indices paragraphs).length)
    (hstart : (heading_indices paragraphs).getD position 0 = start_index)
    (hlevel : (paragraphs.getD start_index default).heading_level = some level) :
    ({ order := (paragraphs.getD start_index default).order
       level := level
       start_index := start_index
       end_index := find_range_end M paragraphs level
         ((heading_indices paragraphs).drop (position + 1)) } : HeadingRange) ∈
      build_heading_ranges M paragraphs := by
  rw [build_heading_ranges]
  apply List.mem_filterMap.mpr
  refine ⟨position, List.mem_range.mpr hpos, ?_⟩
  simp only [hstart, hlevel]

/-- Every paragraph index at or after some heading index is covered by a
heading range.  This is the tiling half of the spec's invariant; the
no-overlap half fails (see the C9 counterexample). -/
theorem heading_ranges_cover (M : CharModel) (paragraphs : List ParsedParagraph)
    (j : Nat) (hj : j < paragraphs.length) :
    ∀ (position : Nat) (suffix : List Nat),
      suffix = (heading_indices paragraphs).drop position →
      (∃ m ∈ suffix, m ≤ j) →
      ∃ r ∈ build_heading_ranges M paragraphs,
        r.start_index ≤ j ∧ j < r.end_index := by
  intro position suffix
  induction suffix generalizing position with
  | nil => rintro _ ⟨m, hm, _⟩; cases hm
  | cons c rest ih =>
    intro hdrop hex
    have hrest : rest = (heading_indices paragraphs).drop (position + 1) := by
      have h1 : (heading_indices paragraphs).drop (position + 1) =
          ((heading_indices paragraphs).drop position).drop 1 := by
        rw [List.drop_drop]
      rw [h1, ← hdrop]
      rfl
    by_cases hmore : ∃ m ∈ rest, m ≤ j
    · exact ih (position + 1) hrest hmore
    · have hcj : c ≤ j := by
        rcases hex with ⟨m, hm, hmj⟩
        rcases List.mem_cons.mp hm with rfl | hmem
        · exact hmj
        · exact absurd ⟨m, hmem, hmj⟩ hmore
      have hpos : position < (heading_indices paragraphs).length := by
        by_contra hge
        have : (heading_indices paragraphs).drop position = [] :=
          List.drop_eq_nil_of_le (le_of_not_lt hge)
        rw [this] at hdrop
        cases hdrop
      have hgetD : (heading_indices paragraphs).getD position 0 = c := by
        have h0 : ((heading_indices paragraphs).drop position).head? = some c := by
          rw [← hdrop]; rfl
        rw [List.getD_eq_getElem?_getD, ← List.head?_drop, h0]
        rfl
      have hcmem : c ∈ heading_indices paragraphs := by
        have : c ∈ (heading_indices paragraphs).drop position := by
          rw [← hdrop]; exact List.mem_cons_self c rest
        exact List.mem_of_mem_drop this
      rcases mem_heading_indices.mp hcmem with ⟨hclen, hcsome⟩
      cases hlevel : (paragraphs.getD c default).heading_level with
      | none => rw [hlevel] at hcsome; cases hcsome
      | some level =>
        refine ⟨_, range_at_position_mem M paragraphs hpos hgetD hlevel, hcj, ?_⟩
        show j < find_range_end M paragraphs level
          ((heading_indices paragraphs).drop (position + 1))
        rcases find_range_end_cases M paragraphs level
            ((heading_indices paragraphs).drop (position + 1)) with hcase | hcase
        · rw [hcase]; exact hj
        · rw [← hrest] at hcase
          rcases not_exists.mp hmore _ with hcontra
          have := not_exists.mp hmore (find_range_end M paragraphs level
            ((heading_indices paragraphs).drop (position + 1)))
          rw [← hrest]
          by_contra hlt
          exact (not_exists.mp hmore _) ⟨hcase, le_of_not_lt hlt⟩

/-! ## Relationship merging (capture writer)

`merge_relationships` and `remap_relationship_ids` (lib.rs).  The XML
parsing done by `parse_relationships` (external `roxmltree`) is abstracted:
the relationship maps are passed as association lists (the list order
determinizes the arbitrary `HashMap`/`HashSet` iteration order of the
source).  The raw destination relationships XML is kept as a string since
the function splices appended entries into it textually. -/

/-- The single-quote character, written via its code point. -/
def squote : Char := Char.ofNat 39

/-- The scan of Rust `str::replace`, made structural on a fuel argument:
every step consumes at least one character, so `s.length` fuel always
reaches the end of the string and the fuel-exhausted arm is never taken on
the initial call. -/
def replace_all_go (pat rep : Str) : Nat → Str → Str
  | 0, s => s
  | fuel + 1, s =>
    match s with
    | [] => []
    | c :: t =>
      if pat ≠ [] ∧ pat.isPrefixOf (c :: t) then
        rep ++ replace_all_go pat rep fuel ((c :: t).drop pat.length)
      else c :: replace_all_go pat rep fuel t

/-- Models Rust `str::replace`: left-to-right, non-overlapping replacement
of every occurrence of `pat` by `rep`.  (The source never calls it with an
empty pattern; for an empty pattern this model returns the input.) -/
def replace_all (s pat rep : Str) : Str :=
  replace_all_go pat rep s.length s

/-- `xml_escape_text` (lib.rs). -/
def xml_escape_text (value : Str) : Str :=
  replace_all (replace_all (replace_all value "&".data "&amp;".data)
    "<".data "&lt;".data) ">".data "&gt;".data

/-- `xml_escape_attr` (lib.rs). -/
def xml_escape_attr (value : Str) : Str :=
  replace_all (replace_all (xml_escape_text value) "\"".data "&quot;".data)
    [squote] "&apos;".data

/-- `RelationshipDef` (lib.rs): the `(Type, Target, TargetMode)` triple. -/
structure RelationshipDef where
  rel_type : Str
  target : Str
  target_mode : Option Str
deriving DecidableEq, Inhabited

/-- `relationship_xml` (lib.rs). -/
def relationship_xml (id : Str) (definition : RelationshipDef) : Str :=
  "<Relationship Id=\"".data ++ xml_escape_attr id ++
    "\" Type=\"".data ++ xml_escape_attr definition.rel_type ++
    "\" Target=\"".data ++ xml_escape_attr definition.target ++ "\"".data ++
    (match definition.target_mode with
     | some target_mode => " TargetMode=\"".data ++ xml_escape_attr target_mode ++ "\"".data
     | none => []) ++
    "/>".data

/-- Digit-string parse used for the `rId<n>` numeric suffixes (Rust
`str::parse::<i64>`, restricted to the non-negative digit strings that can
influence the running maximum, which starts at 0). -/
def parse_nat_digits (s : Str) : Option Nat :=
  if s ≠ [] ∧ s.all Char.isDigit then
    some (s.foldl (fun n c => n * 10 + (c.toNat - '0'.toNat)) 0)
  else none

/-- The `loop` of `next_relationship_id` (lib.rs).  The source loops until a
free id is found; since at most `existing.length` candidates can be taken,
`existing.length + 1` iterations always suffice, which the fuel makes
explicit. -/
def next_relationship_id_loop (existing : List Str) : Nat → Nat → Str
  | 0, next => "rId".data ++ (toString next).data
  | fuel + 1, next =>
    let candidate := "rId".data ++ (toString next).data
    if existing.contains candidate then
      next_relationship_id_loop existing fuel (next + 1)
    else candidate

/-- `next_relationship_id` (lib.rs): one more than the largest numeric
`rId` suffix, incremented further until free. -/
def next_relationship_id (existing : List Str) : Str :=
  let max_numeric := existing.foldl (fun m id =>
    if "rId".data.isPrefixOf id then
      match parse_nat_digits (id.drop 3) with
      | some value => max m value
      | none => m
    else m) 0
  next_relationship_id_loop existing (existing.length + 1) (max_numeric + 1)

/-- Index of the last occurrence of `pat` in `s` (Rust `str::rfind`). -/
def rfind_sub (s pat : Str) : Option Nat :=
  (((List.range (s.length + 1)).filter
    (fun i => pat.isPrefixOf (s.drop i)))).getLast?

/-- The per-requested-id body of the `merge_relationships` loop. -/
def merge_relationships_step
    (source_relationships : List (Str × RelationshipDef))
    (state : List (Str × RelationshipDef) × List Str × List (Str × Str) × List Str)
    (requested_id : Str) :
    List (Str × RelationshipDef) × List Str × List (Str × Str) × List Str :=
  let (target_relationships, existing_ids, id_remap, appended_xml) := state
  match source_relationships.lookup requested_id with
  | none => state
  | some source_definition =>
    match target_relationships.lookup requested_id with
    | none =>
      (target_relationships ++ [(requested_id, source_definition)],
        existing_ids ++ [requested_id], id_remap,
        appended_xml ++ [relationship_xml requested_id source_definition])
    | some existing_definition =>
      if existing_definition = source_definition then state
      else
        match target_relationships.find? (fun p => p.2 = source_definition) with
        | some found =>
          (target_relationships, existing_ids,
            id_remap ++ [(requested_id, found.1)], appended_xml)
        | none =>
          let new_id := next_relationship_id existing_ids
          (target_relationships ++ [(new_id, source_definition)],
            existing_ids ++ [new_id], id_remap ++ [(requested_id, new_id)],
            appended_xml ++ [relationship_xml new_id source_definition])

/-- `merge_relationships` (lib.rs): returns the updated destination
relationships XML and the id remap. -/
def merge_relationships (target_relationships_xml : Str)
    (target_relationships source_relationships : List (Str × RelationshipDef))
    (requested_relationship_ids : List Str) : Str × List (Str × Str) :=
  if requested_relationship_ids.isEmpty then (target_relationships_xml, [])
  else if source_relationships.isEmpty then (target_relationships_xml, [])
  else
    let final := requested_relationship_ids.foldl
      (merge_relationships_step source_relationships)
      (target_relationships, target_relationships.map Prod.fst, [], [])
    let id_remap := final.2.2.1
    let appended_xml := final.2.2.2
    if appended_xml.isEmpty then (target_relationships_xml, id_remap)
    else
      match rfind_sub target_relationships_xml "</Relationships>".data with
      | some close_index =>
        (target_relationships_xml.take close_index ++ appended_xml.flatten ++
          target_relationships_xml.drop close_index, id_remap)
      | none =>
        (("<?xml version=\"1.0\" encoding=\"UTF-8\" standalone=\"yes\"?><Relationships xmlns=\"http://schemas.openxmlformats.org/package/2006/relationships\">").data ++
          appended_xml.flatten ++ "</Relationships>".data, id_remap)

/-- `remap_relationship_ids` (lib.rs): textual substitution of remapped ids
over the section paragraph XML, for the three reference attributes and both
quote styles. -/
def remap_relationship_ids (paragraph_xml : List Str)
    (id_remap : List (Str × Str)) : List Str :=
  if id_remap.isEmpty then paragraph_xml
  else
    paragraph_xml.map fun paragraph =>
      id_remap.foldl (fun updated remap_pair =>
        ["r:id".data, "r:embed".data, "r:link".data].foldl (fun u attr =>
          let u1 := replace_all u
            (attr ++ "=\"".data ++ remap_pair.1 ++ "\"".data)
            (attr ++ "=\"".data ++ remap_pair.2 ++ "\"".data)
          replace_all u1
            (attr ++ ('=' :: squote :: remap_pair.1) ++ [squote])
            (attr ++ ('=' :: squote :: remap_pair.2) ++ [squote])) updated)
        paragraph

/-! ## Style merging (capture writer)

`collect_required_style_ids` and `merge_missing_styles` (lib.rs).  The XML
parsing of `parse_source_style_definitions` and `parse_style_ids` (external
`roxmltree`) is abstracted: the source style table is an association list
`style_id ↦ (xml, dependencies)` and the destination's existing ids a list;
the list orders determinize the arbitrary `HashMap`/`HashSet` iteration
orders of the source.  The recursive `visit` of the source terminates
because the seen-set grows within a finite id universe; the `fuel`
argument makes that bound explicit, and `definitions.length + 1` fuel is
always sufficient (each level of recursion inserts a fresh defined id into
the seen-set). -/

/-- `SourceStyleDefinition` (lib.rs): the original style XML and the
`basedOn`/`next`/`link` dependency ids. -/
structure SourceStyleDefinition where
  xml : Str
  dependencies : List Str
deriving DecidableEq, Inhabited

mutual

/-- The recursive `visit` of `collect_required_style_ids` (lib.rs): skip
ids already seen, mark the id seen, visit the dependencies of its
definition (when one exists), then push the id (post-order). -/
def visit_style (definitions : List (Str × SourceStyleDefinition))
    (fuel : Nat) (style_id : Str) (seen ordered : List Str) :
    List Str × List Str :=
  match fuel with
  | 0 => (seen, ordered)
  | fuel' + 1 =>
    if style_id ∈ seen then (seen, ordered)
    else
      let seen1 := style_id :: seen
      match definitions.lookup style_id with
      | none => (seen1, ordered)
      | some definition =>
        let result := visit_style_list definitions fuel' definition.dependencies seen1 ordered
        (result.1, result.2 ++ [style_id])
termination_by (fuel, 0)

/-- The iteration of `visit` over a list of ids with threaded state (the
dependency loop inside `visit`, and the top-level loop over the requested
set). -/
def visit_style_list (definitions : List (Str × SourceStyleDefinition))
    (fuel : Nat) (ids : List Str) (seen ordered : List Str) :
    List Str × List Str :=
  match ids with
  | [] => (seen, ordered)
  | d :: rest =>
    let result := visit_style definitions fuel d seen ordered
    visit_style_list definitions fuel rest result.1 result.2
termination_by (fuel, ids.length + 1)

end

/-- `collect_required_style_ids` (lib.rs). -/
def collect_required_style_ids (requested_ids : List Str)
    (definitions : List (Str × SourceStyleDefinition)) : List Str :=
  (visit_style_list definitions (definitions.length + 1) requested_ids [] []).2

/-- The append loop of `merge_missing_styles` (lib.rs): state is
`(existing_ids, to_append)`; a required id not yet present is recorded and
its source XML queued. -/
def merge_styles_step (definitions : List (Str × SourceStyleDefinition))
    (acc : List Str × List Str) (style_id : Str) : List Str × List Str :=
  if style_id ∈ acc.1 then acc
  else
    match definitions.lookup style_id with
    | some definition => (style_id :: acc.1, acc.2 ++ [definition.xml])
    | none => acc

/-- `merge_missing_styles` (lib.rs): splice the missing required styles
just before the closing `</w:styles>` of the destination. -/
def merge_missing_styles (target_styles_xml : Str)
    (definitions : List (Str × SourceStyleDefinition))
    (existing_ids : List Str) (requested_style_ids : List Str) : Str :=
  if requested_style_ids.isEmpty then target_styles_xml
  else if definitions.isEmpty then target_styles_xml
  else
    let required_ids := collect_required_style_ids requested_style_ids definitions
    if required_ids.isEmpty then target_styles_xml
    else
      let final := required_ids.foldl (merge_styles_step definitions)
        (existing_ids, [])
      let to_append := final.2
      if to_append.isEmpty then target_styles_xml
      else
        match rfind_sub target_styles_xml "</w:styles>".data with
        | some styles_close =>
          target_styles_xml.take styles_close ++ to_append.flatten ++
            target_styles_xml.drop styles_close
        | none =>
          ("<?xml version=\"1.0\" encoding=\"UTF-8\" standalone=\"yes\"?><w:styles xmlns:w=\"http://schemas.openxmlformats.org/wordprocessingml/2006/main\">").data ++
            to_append.flatten ++ "</w:styles>".data

/-- The dependency relation of the source style table: `a` depends on `b`. -/
def DepEdge (definitions : List (Str × SourceStyleDefinition)) (a b : Str) : Prop :=
  ∃ d, definitions.lookup a = some d ∧ b ∈ d.dependencies

/-- No (non-empty) dependency cycle. -/
def AcyclicDeps (definitions : List (Str × SourceStyleDefinition)) : Prop :=
  ∀ x, ¬ Relation.TransGen (DepEdge definitions) x x

/-- Invariant of the DFS: every seen id with a definition has been fully
processed (pushed, with all dependencies seen) unless it is still on the
`pending` stack of in-progress ancestors. -/
def StylesProcessed (definitions : List (Str × SourceStyleDefinition))
    (seen ordered pending : List Str) : Prop :=
  ∀ x ∈ seen, ∀ d, definitions.lookup x = some d →
    (x ∈ ordered ∧ ∀ dep ∈ d.dependencies, dep ∈ seen) ∨ x ∈ pending

/-- Each listed id is topologically after its defined dependencies. -/
def TopoSorted (definitions : List (Str × SourceStyleDefinition))
    (ordered : List Str) : Prop :=
  ∀ l1 x l2, ordered = l1 ++ x :: l2 → ∀ d, definitions.lookup x = some d →
    ∀ dep ∈ d.dependencies, (definitions.lookup dep).isSome = true → dep ∈ l1

/-- The in-progress ancestor stack forms a dependency chain down to the
currently visited id. -/
def PendChain (definitions : List (Str × SourceStyleDefinition)) :
    Str → List Str → Prop
  | _, [] => True
  | id, a :: rest => DepEdge definitions a id ∧ PendChain definitions a rest

/-- Transitive reachability from the requested ids along dependencies. -/
inductive ReachableStyle (definitions : List (Str × SourceStyleDefinition))
    (requested : List Str) : Str → Prop
  | base {id : Str} : id ∈ requested → ReachableStyle definitions requested id
  | step {x y : Str} {d : SourceStyleDefinition} :
      ReachableStyle definitions requested x → definitions.lookup x = some d →
      y ∈ d.dependencies → ReachableStyle definitions requested y

/-- The number of defined style ids not yet seen (the DFS fuel measure). -/
def new_style_keys (definitions : List (Str × SourceStyleDefinition))
    (seen : List Str) : Nat :=
  ((definitions.map Prod.fst).dedup.filter (fun k => k ∉ seen)).length

theorem visit_style_zero (definitions : List (Str × SourceStyleDefinition))
    (style_id : Str) (seen ordered : List Str) :
    visit_style definitions 0 style_id seen ordered = (seen, ordered) := by
  rw [visit_style]

theorem visit_style_succ (definitions : List (Str × SourceStyleDefinition))
    (fuel : Nat) (style_id : Str) (seen ordered : List Str) :
    visit_style definitions (fuel + 1) style_id seen ordered =
      if style_id ∈ seen then (seen, ordered)
      else
        match definitions.lookup style_id with
        | none => (style_id :: seen, ordered)
        | some definition =>
          let result := visit_style_list definitions fuel definition.dependencies
            (style_id :: seen) ordered
          (result.1, result.2 ++ [style_id]) := by
  rw [visit_style]

theorem visit_style_list_nil (definitions : List (Str × SourceStyleDefinition))
    (fuel : Nat) (seen ordered : List Str) :
    visit_style_list definitions fuel [] seen ordered = (seen, ordered) := by
  rw [visit_style_list]

theorem visit_style_list_cons (definitions : List (Str × SourceStyleDefinition))
    (fuel : Nat) (d : Str) (rest : List Str) (seen ordered : List Str) :
    visit_style_list definitions fuel (d :: rest) seen ordered =
      visit_style_list definitions fuel rest
        (visit_style definitions fuel d seen ordered).1
        (visit_style definitions fuel d seen ordered).2 := by
  rw [visit_style_list]

theorem new_style_keys_mono (definitions : List (Str × SourceStyleDefinition))
    {s1 s2 : List Str} (h : ∀ x ∈ s1, x ∈ s2) :
    new_style_keys definitions s2 ≤ new_style_keys definitions s1 := by
  apply List.Sublist.length_le
  apply List.monotone_filter_right
  intro a
  simp only [decide_not, Bool.not_eq_true', decide_eq_false_iff_not]
  exact fun ha hmem => ha (h a hmem)

theorem mem_keys_of_lookup_eq_some {definitions : List (Str × SourceStyleDefinition)}
    {style_id : Str} {d : SourceStyleDefinition}
    (h : definitions.lookup style_id = some d) :
    style_id ∈ definitions.map Prod.fst := by
  induction definitions with
  | nil => cases h
  | cons p rest ih =>
    rw [List.lookup] at h
    by_cases he : style_id = p.1
    · exact List.mem_cons.mpr (Or.inl he)
    · have : (style_id == p.1) = false := by
        simp [he]
      rw [this] at h
      exact List.mem_cons.mpr (Or.inr (ih h))

theorem new_style_keys_insert_lt (definitions : List (Str × SourceStyleDefinition))
    {style_id : Str} {seen : List Str} {d : SourceStyleDefinition}
    (hns : style_id ∉ seen) (hd : definitions.lookup style_id = some d) :
    new_style_keys definitions (style_id :: seen) < new_style_keys definitions seen := by
  rw [new_style_keys, new_style_keys]
  have hsub : ((definitions.map Prod.fst).dedup.filter (fun k => k ∉ style_id :: seen)).Sublist
      ((definitions.map Prod.fst).dedup.filter (fun k => k ∉ seen)) := by
    apply List.monotone_filter_right
    intro a
    simp only [decide_not, Bool.not_eq_true', decide_eq_false_iff_not, List.mem_cons]
    exact fun ha hmem => ha (Or.inr hmem)
  rcases Nat.lt_or_ge
      ((definitions.map Prod.fst).dedup.filter (fun k => k ∉ style_id :: seen)).length
      ((definitions.map Prod.fst).dedup.filter (fun k => k ∉ seen)).length with h | h
  · exact h
  · exfalso
    have heq := hsub.eq_of_length (le_antisymm hsub.length_le h)
    have hmem : style_id ∈ (definitions.map Prod.fst).dedup.filter (fun k => k ∉ seen) := by
      rw [List.mem_filter]
      exact ⟨List.mem_dedup.mpr (mem_keys_of_lookup_eq_some hd), by simp [hns]⟩
    rw [← heq, List.mem_filter] at hmem
    simp at hmem

theorem pend_chain_trans (definitions : List (Str × SourceStyleDefinition)) :
    ∀ (pending : List Str) (style_id : Str),
      PendChain definitions style_id pending →
      ∀ a ∈ pending, Relation.TransGen (DepEdge definitions) a style_id := by
  intro pending
  induction pending with
  | nil => intro _ _ a ha; cases ha
  | cons b rest ih =>
    intro style_id hchain a ha
    rcases List.mem_cons.mp ha with rfl | ha
    · exact Relation.TransGen.single hchain.1
    · exact Relation.TransGen.trans (ih b hchain.2 a ha)
        (Relation.TransGen.single hchain.1)

theorem append_singleton_eq_append_cons {o : List Str} {id : Str}
    {l1 : List Str} {x : Str} {l2 : List Str}
    (h : o ++ [id] = l1 ++ x :: l2) :
    (∃ l2', o = l1 ++ x :: l2' ∧ l2 = l2' ++ [id]) ∨ (l1 = o ∧ x = id ∧ l2 = []) := by
  rcases List.eq_nil_or_concat l2 with rfl | ⟨l2', last, rfl⟩
  · right
    have hlen : o.length = l1.length := by
      have hl := congrArg List.length h
      simp only [List.length_append, List.length_cons, List.length_nil] at hl
      omega
    rcases List.append_inj h hlen with ⟨ho, hx⟩
    have hx' : x = id := by
      injection hx with h1 _
      exact h1.symm
    exact ⟨ho.symm, hx', rfl⟩
  · left
    rw [List.concat_eq_append] at h
    have h2 : o ++ [id] = (l1 ++ x :: l2') ++ [last] := by
      rw [h]; simp
    have hlen : o.length = (l1 ++ x :: l2').length := by
      have hl := congrArg List.length h2
      simp only [List.length_append, List.length_cons, List.length_nil] at hl ⊢
      omega
    rcases List.append_inj h2 hlen with ⟨ho, hx⟩
    have hx' : id = last := by
      simpa using hx
    subst hx'
    exact ⟨l2', ho, by simp⟩

theorem visit_style_grow (definitions : List (Str × SourceStyleDefinition)) :
    ∀ fuel : Nat,
      (∀ (style_id : Str) (seen ordered : List Str),
        new_style_keys definitions seen < fuel →
        (∀ x ∈ seen, x ∈ (visit_style definitions fuel style_id seen ordered).1) ∧
        style_id ∈ (visit_style definitions fuel style_id seen ordered).1) ∧
      (∀ (ids : List Str) (seen ordered : List Str),
        new_style_keys definitions seen < fuel →
        (∀ x ∈ seen, x ∈ (visit_style_list definitions fuel ids seen ordered).1) ∧
        (∀ i ∈ ids, i ∈ (visit_style_list definitions fuel ids seen ordered).1)) := by
  intro fuel
  induction fuel with
  | zero =>
    constructor
    · intro _ _ _ hfuel; exact absurd hfuel (by omega)
    · intro _ _ _ hfuel; exact absurd hfuel (by omega)
  | succ fuel ih =>
    have hA : ∀ (style_id : Str) (seen ordered : List Str),
        new_style_keys definitions seen < fuel + 1 →
        (∀ x ∈ seen, x ∈ (visit_style definitions (fuel + 1) style_id seen ordered).1) ∧
        style_id ∈ (visit_style definitions (fuel + 1) style_id seen ordered).1 := by
      intro style_id seen ordered hfuel
      rw [visit_style_succ]
      by_cases hseen : style_id ∈ seen
      · rw [if_pos hseen]
        exact ⟨fun x hx => hx, hseen⟩
      · rw [if_neg hseen]
        cases hlook : definitions.lookup style_id with
        | none =>
          exact ⟨fun x hx => List.mem_cons_of_mem _ hx, List.mem_cons_self _ _⟩
        | some definition =>
          have hfuel' : new_style_keys definitions (style_id :: seen) < fuel :=
            lt_of_lt_of_le (new_style_keys_insert_lt definitions hseen hlook)
              (Nat.lt_succ_iff.mp hfuel)
          rcases ih.2 definition.dependencies (style_id :: seen) ordered hfuel' with
            ⟨hsub, _⟩
          exact ⟨fun x hx => hsub x (List.mem_cons_of_mem _ hx),
            hsub style_id (List.mem_cons_self _ _)⟩
    refine ⟨hA, ?_⟩
    intro ids
    induction ids with
    | nil =>
      intro seen ordered _
      rw [visit_style_list_nil]
      exact ⟨fun x hx => hx, fun i hi => absurd hi (List.not_mem_nil i)⟩
    | cons d rest ihl =>
      intro seen ordered hfuel
      rw [visit_style_list_cons]
      rcases hA d seen ordered hfuel with ⟨h1, h2⟩
      have hfuel2 : new_style_keys definitions
          (visit_style definitions (fuel + 1) d seen ordered).1 < fuel + 1 :=
        lt_of_le_of_lt (new_style_keys_mono definitions h1) hfuel
      rcases ihl (visit_style definitions (fuel + 1) d seen ordered).1
          (visit_style definitions (fuel + 1) d seen ordered).2 hfuel2 with ⟨h3, h4⟩
      refine ⟨fun x hx => h3 x (h1 x hx), fun i hi => ?_⟩
      rcases List.mem_cons.mp hi with rfl | hi
      · exact h3 i h2
      · exact h4 i hi

theorem visit_style_delta (definitions : List (Str × SourceStyleDefinition)) :
    ∀ fuel : Nat,
      (∀ (style_id : Str) (seen ordered : List Str),
        new_style_keys definitions seen < fuel →
        ∃ Δ, (visit_style definitions fuel style_id seen ordered).2 = ordered ++ Δ ∧
          Δ.Nodup ∧ (∀ x ∈ Δ, x ∉ seen) ∧
          (∀ x ∈ Δ, x ∈ (visit_style definitions fuel style_id seen ordered).1)) ∧
      (∀ (ids : List Str) (seen ordered : List Str),
        new_style_keys definitions seen < fuel →
        ∃ Δ, (visit_style_list definitions fuel ids seen ordered).2 = ordered ++ Δ ∧
          Δ.Nodup ∧ (∀ x ∈ Δ, x ∉ seen) ∧
          (∀ x ∈ Δ, x ∈ (visit_style_list definitions fuel ids seen ordered).1)) := by
  intro fuel
  induction fuel with
  | zero =>
    constructor
    · intro _ _ _ hfuel; exact absurd hfuel (by omega)
    · intro _ _ _ hfuel; exact absurd hfuel (by omega)
  | succ fuel ih =>
    have hA : ∀ (style_id : Str) (seen ordered : List Str),
        new_style_keys definitions seen < fuel + 1 →
        ∃ Δ, (visit_style definitions (fuel + 1) style_id seen ordered).2 = ordered ++ Δ ∧
          Δ.Nodup ∧ (∀ x ∈ Δ, x ∉ seen) ∧
          (∀ x ∈ Δ, x ∈ (visit_style definitions (fuel + 1) style_id seen ordered).1) := by
      intro style_id seen ordered hfuel
      rw [visit_style_succ]
      by_cases hseen : style_id ∈ seen
      · rw [if_pos hseen]
        exact ⟨[], by simp, List.nodup_nil, by simp, by simp⟩
      · rw [if_neg hseen]
        cases hlook : definitions.lookup style_id with
        | none =>
          exact ⟨[], by simp, List.nodup_nil, by simp, by simp⟩
        | some definition =>
          have hfuel' : new_style_keys definitions (style_id :: seen) < fuel :=
            lt_of_lt_of_le (new_style_keys_insert_lt definitions hseen hlook)
              (Nat.lt_succ_iff.mp hfuel)
          rcases ih.2 definition.dependencies (style_id :: seen) ordered hfuel' with
            ⟨Δl, heq, hnodup, hfresh, hmem⟩
          rcases (visit_style_grow definitions fuel).2 definition.dependencies
              (style_id :: seen) ordered hfuel' with ⟨hsub, _⟩
          refine ⟨Δl ++ [style_id], ?_, ?_, ?_, ?_⟩
          · show (visit_style_list definitions fuel definition.dependencies
              (style_id :: seen) ordered).2 ++ [style_id] = ordered ++ (Δl ++ [style_id])
            rw [heq, List.append_assoc]
          · rw [List.nodup_append]
            refine ⟨hnodup, List.nodup_singleton _, ?_⟩
            intro a ha
            simp only [List.mem_singleton]
            intro hae
            subst hae
            exact hfresh a ha (List.mem_cons_self _ _)
          · intro x hx
            rcases List.mem_append.mp hx with hx | hx
            · exact fun hc => hfresh x hx (List.mem_cons_of_mem _ hc)
            · rw [List.mem_singleton] at hx
              subst hx
              exact hseen
          · intro x hx
            rcases List.mem_append.mp hx with hx | hx
            · exact hmem x hx
            · rw [List.mem_singleton] at hx
              subst hx
              exact hsub x (List.mem_cons_self _ _)
    refine ⟨hA, ?_⟩
    intro ids
    induction ids with
    | nil =>
      intro seen ordered _
      rw [visit_style_list_nil]
      exact ⟨[], by simp, List.nodup_nil, by simp, by simp⟩
    | cons d rest ihl =>
      intro seen ordered hfuel
      rw [visit_style_list_cons]
      rcases hA d seen ordered hfuel with ⟨Δ1, heq1, hnodup1, hfresh1, hmem1⟩
      rcases (visit_style_grow definitions (fuel + 1)).1 d seen ordered hfuel with
        ⟨hg1, _⟩
      have hfuel2 : new_style_keys definitions
          (visit_style definitions (fuel + 1) d seen ordered).1 < fuel + 1 :=
        lt_of_le_of_lt (new_style_keys_mono definitions hg1) hfuel
      rcases ihl (visit_style definitions (fuel + 1) d seen ordered).1
          (visit_style definitions (fuel + 1) d seen ordered).2 hfuel2 with
        ⟨Δ2, heq2, hnodup2, hfresh2, hmem2⟩
      rcases (visit_style_grow definitions (fuel + 1)).2 rest
          (visit_style definitions (fuel + 1) d seen ordered).1
          (visit_style definitions (fuel + 1) d seen ordered).2 hfuel2 with ⟨hg3, _⟩
      refine ⟨Δ1 ++ Δ2, ?_, ?_, ?_, ?_⟩
      · rw [heq2, heq1, List.append_assoc]
      · rw [List.nodup_append]
        refine ⟨hnodup1, hnodup2, ?_⟩
        intro a ha hb
        exact hfresh2 a hb (hmem1 a ha)
      · intro x hx
        rcases List.mem_append.mp hx with hx | hx
        · exact hfresh1 x hx
        · exact fun hc => hfresh2 x hx (hg1 x hc)
      · intro x hx
        rcases List.mem_append.mp hx with hx | hx
        · exact hg3 x (hmem1 x hx)
        · exact hmem2 x hx

theorem styles_processed_insert {definitions : List (Str × SourceStyleDefinition)}
    {seen ordered pending : List Str} {style_id : Str}
    (h : StylesProcessed definitions seen ordered pending) :
    StylesProcessed definitions (style_id :: seen) ordered (style_id :: pending) := by
  intro x hx d hd
  rcases List.mem_cons.mp hx with rfl | hx
  · right; exact List.mem_cons_self _ _
  · rcases h x hx d hd with ⟨ho, hdeps⟩ | hp
    · exact Or.inl ⟨ho, fun dep hdep => List.mem_cons_of_mem _ (hdeps dep hdep)⟩
    · exact Or.inr (List.mem_cons_of_mem _ hp)

theorem visit_style_processed (definitions : List (Str × SourceStyleDefinition)) :
    ∀ fuel : Nat,
      (∀ (style_id : Str) (seen ordered pending : List Str),
        new_style_keys definitions seen < fuel →
        StylesProcessed definitions seen ordered pending →
        StylesProcessed definitions
          (visit_style definitions fuel style_id seen ordered).1
          (visit_style definitions fuel style_id seen ordered).2 pending) ∧
      (∀ (ids : List Str) (seen ordered pending : List Str),
        new_style_keys definitions seen < fuel →
        StylesProcessed definitions seen ordered pending →
        StylesProcessed definitions
          (visit_style_list definitions fuel ids seen ordered).1
          (visit_style_list definitions fuel ids seen ordered).2 pending) := by
  intro fuel
  induction fuel with
  | zero =>
    constructor
    · intro _ _ _ _ hfuel; exact absurd hfuel (by omega)
    · intro _ _ _ _ hfuel; exact absurd hfuel (by omega)
  | succ fuel ih =>
    have hA : ∀ (style_id : Str) (seen ordered pending : List Str),
        new_style_keys definitions seen < fuel + 1 →
        StylesProcessed definitions seen ordered pending →
        StylesProcessed definitions
          (visit_style definitions (fuel + 1) style_id seen ordered).1
          (visit_style definitions (fuel + 1) style_id seen ordered).2 pending := by
      intro style_id seen ordered pending hfuel hproc
      rw [visit_style_succ]
      by_cases hseen : style_id ∈ seen
      · rw [if_pos hseen]; exact hproc
      · rw [if_neg hseen]
        cases hlook : definitions.lookup style_id with
        | none =>
          intro x hx d hd
          rcases List.mem_cons.mp hx with rfl | hx
          · rw [hlook] at hd; cases hd
          · rcases hproc x hx d hd with ⟨ho, hdeps⟩ | hp
            · exact Or.inl ⟨ho, fun dep hdep => List.mem_cons_of_mem _ (hdeps dep hdep)⟩
            · exact Or.inr hp
        | some definition =>
          have hfuel' : new_style_keys definitions (style_id :: seen) < fuel :=
            lt_of_lt_of_le (new_style_keys_insert_lt definitions hseen hlook)
              (Nat.lt_succ_iff.mp hfuel)
          have hproc' : StylesProcessed definitions (style_id :: seen) ordered
              (style_id :: pending) := styles_processed_insert hproc
          have hinner := ih.2 definition.dependencies (style_id :: seen) ordered
            (style_id :: pending) hfuel' hproc'
          rcases (visit_style_grow definitions fuel).2 definition.dependencies
              (style_id :: seen) ordered hfuel' with ⟨_, hdeps_in⟩
          intro x hx d hd
          rcases hinner x hx d hd with ⟨ho, hdeps⟩ | hp
          · exact Or.inl ⟨List.mem_append_left _ ho, hdeps⟩
          · rcases List.mem_cons.mp hp with rfl | hp
            · left
              have hde : d = definition := by
                rw [hlook] at hd
                injection hd with h1
                exact h1.symm
              subst hde
              exact ⟨List.mem_append_right _ (List.mem_singleton_self _),
                fun dep hdep => hdeps_in dep hdep⟩
            · exact Or.inr hp
    refine ⟨hA, ?_⟩
    intro ids
    induction ids with
    | nil =>
      intro seen ordered pending _ hproc
      rw [visit_style_list_nil]
      exact hproc
    | cons d rest ihl =>
      intro seen ordered pending hfuel hproc
      rw [visit_style_list_cons]
      rcases (visit_style_grow definitions (fuel + 1)).1 d seen ordered hfuel with
        ⟨hg1, _⟩
      have hfuel2 : new_style_keys definitions
          (visit_style definitions (fuel + 1) d seen ordered).1 < fuel + 1 :=
        lt_of_le_of_lt (new_style_keys_mono definitions hg1) hfuel
      exact ihl (visit_style definitions (fuel + 1) d seen ordered).1
        (visit_style definitions (fuel + 1) d seen ordered).2 pending hfuel2
        (hA d seen ordered pending hfuel hproc)

theorem visit_style_topo (definitions : List (Str × SourceStyleDefinition))
    (hacyc : AcyclicDeps definitions) :
    ∀ fuel : Nat,
      (∀ (style_id : Str) (seen ordered pending : List Str),
        new_style_keys definitions seen < fuel →
        StylesProcessed definitions seen ordered pending →
        PendChain definitions style_id pending →
        TopoSorted definitions ordered →
        TopoSorted definitions (visit_style definitions fuel style_id seen ordered).2) ∧
      (∀ (ids : List Str) (seen ordered pending : List Str),
        new_style_keys definitions seen < fuel →
        StylesProcessed definitions seen ordered pending →
        (∀ i ∈ ids, PendChain definitions i pending) →
        TopoSorted definitions ordered →
        TopoSorted definitions (visit_style_list definitions fuel ids seen ordered).2) := by
  intro fuel
  induction fuel with
  | zero =>
    constructor
    · intro _ _ _ _ hfuel; exact absurd hfuel (by omega)
    · intro _ _ _ _ hfuel; exact absurd hfuel (by omega)
  | succ fuel ih =>
    have hA : ∀ (style_id : Str) (seen ordered pending : List Str),
        new_style_keys definitions seen < fuel + 1 →
        StylesProcessed definitions seen ordered pending →
        PendChain definitions style_id pending →
        TopoSorted definitions ordered →
        TopoSorted definitions
          (visit_style definitions (fuel + 1) style_id seen ordered).2 := by
      intro style_id seen ordered pending hfuel hproc hchain hts
      rw [visit_style_succ]
      by_cases hseen : style_id ∈ seen
      · rw [if_pos hseen]; exact hts
      · rw [if_neg hseen]
        cases hlook : definitions.lookup style_id with
        | none => exact hts
        | some definition =>
          have hfuel' : new_style_keys definitions (style_id :: seen) < fuel :=
            lt_of_lt_of_le (new_style_keys_insert_lt definitions hseen hlook)
              (Nat.lt_succ_iff.mp hfuel)
          have hproc' : StylesProcessed definitions (style_id :: seen) ordered
              (style_id :: pending) := styles_processed_insert hproc
          have hchains : ∀ i ∈ definition.dependencies,
              PendChain definitions i (style_id :: pending) := by
            intro i hi
            exact ⟨⟨definition, hlook, hi⟩, hchain⟩
          have hts'' := ih.2 definition.dependencies (style_id :: seen) ordered
            (style_id :: pending) hfuel' hproc' hchains hts
          have hproc'' := (visit_style_processed definitions fuel).2
            definition.dependencies (style_id :: seen) ordered (style_id :: pending)
            hfuel' hproc'
          rcases (visit_style_grow definitions fuel).2 definition.dependencies
              (style_id :: seen) ordered hfuel' with ⟨_, hdeps_in⟩
          intro l1 x l2 hsplit d hd dep hdep hdepdef
          rcases append_singleton_eq_append_cons hsplit with
            ⟨l2', hsplit', _⟩ | ⟨hl1, hx, _⟩
          · exact hts'' l1 x l2' hsplit' d hd dep hdep hdepdef
          · have hd' : definitions.lookup style_id = some d := by
              rw [← hx]; exact hd
            have hddef : d = definition := Option.some.inj (hd'.symm.trans hlook)
            have hdep2 : dep ∈ definition.dependencies := hddef ▸ hdep
            have hdep_seen : dep ∈ (visit_style_list definitions fuel
                definition.dependencies (style_id :: seen) ordered).1 :=
              hdeps_in dep hdep2
            rcases Option.isSome_iff_exists.mp hdepdef with ⟨ddep, hddep⟩
            rcases hproc'' dep hdep_seen ddep hddep with ⟨ho, _⟩ | hp
            · rw [hl1]; exact ho
            · exfalso
              rcases List.mem_cons.mp hp with rfl | hp
              · exact hacyc dep (Relation.TransGen.single ⟨d, hd', hdep⟩)
              · exact hacyc style_id
                  (Relation.TransGen.head ⟨d, hd', hdep⟩
                    (pend_chain_trans definitions pending style_id hchain dep hp))
    refine ⟨hA, ?_⟩
    intro ids
    induction ids with
    | nil =>
      intro seen ordered pending _ _ _ hts
      rw [visit_style_list_nil]
      exact hts
    | cons d rest ihl =>
      intro seen ordered pending hfuel hproc hchains hts
      rw [visit_style_list_cons]
      rcases (visit_style_grow definitions (fuel + 1)).1 d seen ordered hfuel with
        ⟨hg1, _⟩
      have hfuel2 : new_style_keys definitions
          (visit_style definitions (fuel + 1) d seen ordered).1 < fuel + 1 :=
        lt_of_le_of_lt (new_style_keys_mono definitions hg1) hfuel
      exact ihl (visit_style definitions (fuel + 1) d seen ordered).1
        (visit_style definitions (fuel + 1) d seen ordered).2 pending hfuel2
        ((visit_style_processed definitions (fuel + 1)).1 d seen ordered pending
          hfuel hproc)
        (fun i hi => hchains i (List.mem_cons_of_mem _ hi))
        (hA d seen ordered pending hfuel hproc
          (hchains d (List.mem_cons_self _ _)) hts)

theorem visit_style_reach (definitions : List (Str × SourceStyleDefinition))
    (requested : List Str) :
    ∀ fuel : Nat,
      (∀ (style_id : Str) (seen ordered : List Str),
        ReachableStyle definitions requested style_id →
        (∀ x ∈ (visit_style definitions fuel style_id seen ordered).1,
          x ∈ seen ∨ ReachableStyle definitions requested x) ∧
        (∀ x ∈ (visit_style definitions fuel style_id seen ordered).2,
          x ∈ ordered ∨ (ReachableStyle definitions requested x ∧
            (definitions.lookup x).isSome = true))) ∧
      (∀ (ids : List Str) (seen ordered : List Str),
        (∀ i ∈ ids, ReachableStyle definitions requested i) →
        (∀ x ∈ (visit_style_list definitions fuel ids seen ordered).1,
          x ∈ seen ∨ ReachableStyle definitions requested x) ∧
        (∀ x ∈ (visit_style_list definitions fuel ids seen ordered).2,
          x ∈ ordered ∨ (ReachableStyle definitions requested x ∧
            (definitions.lookup x).isSome = true))) := by
  intro fuel
  induction fuel with
  | zero =>
    constructor
    · intro style_id seen ordered _
      rw [visit_style_zero]
      exact ⟨fun x hx => Or.inl hx, fun x hx => Or.inl hx⟩
    · intro ids
      induction ids with
      | nil =>
        intro seen ordered _
        rw [visit_style_list_nil]
        exact ⟨fun x hx => Or.inl hx, fun x hx => Or.inl hx⟩
      | cons d rest ihl =>
        intro seen ordered hreach
        rw [visit_style_list_cons, visit_style_zero]
        rcases ihl seen ordered (fun i hi => hreach i (List.mem_cons_of_mem _ hi)) with
          ⟨h1, h2⟩
        exact ⟨h1, h2⟩
  | succ fuel ih =>
    have hA : ∀ (style_id : Str) (seen ordered : List Str),
        ReachableStyle definitions requested style_id →
        (∀ x ∈ (visit_style definitions (fuel + 1) style_id seen ordered).1,
          x ∈ seen ∨ ReachableStyle definitions requested x) ∧
        (∀ x ∈ (visit_style definitions (fuel + 1) style_id seen ordered).2,
          x ∈ ordered ∨ (ReachableStyle definitions requested x ∧
            (definitions.lookup x).isSome = true)) := by
      intro style_id seen ordered hreach
      rw [visit_style_succ]
      by_cases hseen : style_id ∈ seen
      · rw [if_pos hseen]
        exact ⟨fun x hx => Or.inl hx, fun x hx => Or.inl hx⟩
      · rw [if_neg hseen]
        cases hlook : definitions.lookup style_id with
        | none =>
          constructor
          · intro x hx
            rcases List.mem_cons.mp hx with rfl | hx
            · exact Or.inr hreach
            · exact Or.inl hx
          · exact fun x hx => Or.inl hx
        | some definition =>
          have hreach_deps : ∀ i ∈ definition.dependencies,
              ReachableStyle definitions requested i :=
            fun i hi => ReachableStyle.step hreach hlook hi
          rcases ih.2 definition.dependencies (style_id :: seen) ordered hreach_deps
            with ⟨h1, h2⟩
          constructor
          · intro x hx
            rcases h1 x hx with hx' | hx'
            · rcases List.mem_cons.mp hx' with rfl | hx''
              · exact Or.inr hreach
              · exact Or.inl hx''
            · exact Or.inr hx'
          · intro x hx
            rcases List.mem_append.mp hx with hx | hx
            · exact h2 x hx
            · rw [List.mem_singleton] at hx
              subst hx
              exact Or.inr ⟨hreach, by rw [hlook]; rfl⟩
    refine ⟨hA, ?_⟩
    intro ids
    induction ids with
    | nil =>
      intro seen ordered _
      rw [visit_style_list_nil]
      exact ⟨fun x hx => Or.inl hx, fun x hx => Or.inl hx⟩
    | cons d rest ihl =>
      intro seen ordered hreach
      rw [visit_style_list_cons]
      rcases hA d seen ordered (hreach d (List.mem_cons_self _ _)) with ⟨h1, h2⟩
      rcases ihl (visit_style definitions (fuel + 1) d seen ordered).1
          (visit_style definitions (fuel + 1) d seen ordered).2
          (fun i hi => hreach i (List.mem_cons_of_mem _ hi)) with ⟨h3, h4⟩
      constructor
      · intro x hx
        rcases h3 x hx with hx' | hx'
        · exact h1 x hx'
        · exact Or.inr hx'
      · intro x hx
        rcases h4 x hx with hx' | hx'
        · exact h2 x hx'
        · exact Or.inr hx'

theorem new_style_keys_nil_lt (definitions : List (Str × SourceStyleDefinition)) :
    new_style_keys definitions [] < definitions.length + 1 := by
  rw [new_style_keys]
  have h1 : ((definitions.map Prod.fst).dedup.filter
      (fun k => k ∉ ([] : List Str))).length ≤ (definitions.map Prod.fst).dedup.length :=
    (List.filter_sublist _).length_le
  have h2 : (definitions.map Prod.fst).dedup.length ≤ (definitions.map Prod.fst).length :=
    (List.dedup_sublist _).length_le
  rw [List.length_map] at h2
  omega

theorem styles_processed_nil (definitions : List (Str × SourceStyleDefinition))
    (ordered pending : List Str) :
    StylesProcessed definitions [] ordered pending := by
  intro x hx
  cases hx

theorem topo_sorted_nil (definitions : List (Str × SourceStyleDefinition)) :
    TopoSorted definitions [] := by
  intro l1 x l2 hsplit
  exact absurd hsplit (by simp)

theorem pend_chain_nil (definitions : List (Str × SourceStyleDefinition)) (i : Str) :
    PendChain definitions i [] := by
  rw [PendChain]
  trivial

/-- Full characterisation of `collect_required_style_ids`: it lists, without
duplicates, exactly the ids reachable from the requested set that have a
definition, and (when the dependency relation is acyclic) each id comes
after its defined dependencies. -/
theorem collect_required_style_ids_spec
    (definitions : List (Str × SourceStyleDefinition)) (requested : List Str) :
    (collect_required_style_ids requested definitions).Nodup ∧
    (∀ x, x ∈ collect_required_style_ids requested definitions ↔
      ReachableStyle definitions requested x ∧
        (definitions.lookup x).isSome = true) ∧
    (AcyclicDeps definitions →
      TopoSorted definitions (collect_required_style_ids requested definitions)) := by
  have hfuel := new_style_keys_nil_lt definitions
  have hproc_final := (visit_style_processed definitions (definitions.length + 1)).2
    requested [] [] [] hfuel (styles_processed_nil definitions [] [])
  rcases (visit_style_grow definitions (definitions.length + 1)).2 requested [] []
    hfuel with ⟨_, hreq_in⟩
  have hreach_in : ∀ x, ReachableStyle definitions requested x →
      x ∈ (visit_style_list definitions (definitions.length + 1) requested [] []).1 := by
    intro x hx
    induction hx with
    | base hmem => exact hreq_in _ hmem
    | step hx hlook hdep ih =>
      rcases hproc_final _ ih _ hlook with ⟨_, hdeps⟩ | hp
      · exact hdeps _ hdep
      · cases hp
  refine ⟨?_, ?_, ?_⟩
  · rcases (visit_style_delta definitions (definitions.length + 1)).2 requested [] []
      hfuel with ⟨Δ, heq, hnodup, _, _⟩
    rw [collect_required_style_ids, heq]
    simpa using hnodup
  · intro x
    constructor
    · intro hx
      rcases (visit_style_reach definitions requested (definitions.length + 1)).2
          requested [] [] (fun i hi => ReachableStyle.base hi) with ⟨_, h2⟩
      rcases h2 x hx with hx' | hx'
      · cases hx'
      · exact hx'
    · rintro ⟨hreach, hdef⟩
      rcases Option.isSome_iff_exists.mp hdef with ⟨d, hd⟩
      rcases hproc_final x (hreach_in x hreach) d hd with ⟨ho, _⟩ | hp
      · exact ho
      · cases hp
  · intro hacyc
    exact (visit_style_topo definitions hacyc (definitions.length + 1)).2 requested
      [] [] [] hfuel (styles_processed_nil definitions [] [])
      (fun i _ => pend_chain_nil definitions i) (topo_sorted_nil definitions)

/-- The `merge_missing_styles` append loop keeps exactly the required ids
that are not already present, in order, each contributing its source XML. -/
theorem merge_styles_fold_spec (definitions : List (Str × SourceStyleDefinition)) :
    ∀ (required existing acc0 : List Str),
      required.Nodup →
      (∀ id ∈ required, (definitions.lookup id).isSome = true) →
      (required.foldl (merge_styles_step definitions) (existing, acc0)).2 =
        acc0 ++ (required.filter (fun id => id ∉ existing)).map
          (fun id => ((definitions.lookup id).getD default).xml) := by
  intro required
  induction required with
  | nil => intro existing acc0 _ _; simp
  | cons id rest ih =>
    intro existing acc0 hnodup hdef
    rw [List.foldl_cons]
    have hid_rest : id ∉ rest := (List.nodup_cons.mp hnodup).1
    have hfilter_eq : rest.filter (fun a => a ∉ id :: existing) =
        rest.filter (fun a => a ∉ existing) := by
      apply List.filter_congr
      intro a ha
      have hne : a ≠ id := fun he => hid_rest (he ▸ ha)
      simp [hne]
    by_cases hin : id ∈ existing
    · rw [merge_styles_step, if_pos hin]
      rw [ih existing acc0 (List.nodup_cons.mp hnodup).2
        (fun i hi => hdef i (List.mem_cons_of_mem _ hi))]
      have : (id :: rest).filter (fun a => a ∉ existing) =
          rest.filter (fun a => a ∉ existing) := by
        rw [List.filter_cons]
        simp [hin]
      rw [this]
    · rw [merge_styles_step, if_neg hin]
      rcases Option.isSome_iff_exists.mp (hdef id (List.mem_cons_self _ _)) with ⟨d, hd⟩
      rw [hd]
      rw [ih (id :: existing) (acc0 ++ [d.xml]) (List.nodup_cons.mp hnodup).2
        (fun i hi => hdef i (List.mem_cons_of_mem _ hi))]
      have : (id :: rest).filter (fun a => a ∉ existing) =
          id :: rest.filter (fun a => a ∉ existing) := by
        rw [List.filter_cons]
        simp [hin]
      rw [this, hfilter_eq, List.map_cons, hd]
      simp

/-- A split of a filtered list lifts to a split of the original list. -/
theorem filter_split {p : Str → Bool} :
    ∀ (o l1 : List Str) (x : Str) (l2 : List Str),
      o.filter p = l1 ++ x :: l2 →
      ∃ o1 o2, o = o1 ++ x :: o2 ∧ o1.filter p = l1 ∧ o2.filter p = l2 := by
  intro o
  induction o with
  | nil =>
    intro l1 x l2 h
    rw [List.filter_nil] at h
    exact absurd h.symm (by simp)
  | cons a o' ih =>
    intro l1 x l2 h
    rw [List.filter_cons] at h
    by_cases hpa : p a = true
    · rw [if_pos hpa] at h
      cases l1 with
      | nil =>
        rw [List.nil_append] at h
        injection h with h1 h2
        subst h1
        exact ⟨[], o', by simp, rfl, h2⟩
      | cons b l1' =>
        rw [List.cons_append] at h
        injection h with h1 h2
        subst h1
        rcases ih l1' x l2 h2 with ⟨o1, o2, ho, hf1, hf2⟩
        refine ⟨a :: o1, o2, by rw [ho]; rfl, ?_, hf2⟩
        rw [List.filter_cons, if_pos hpa, hf1]
    · rw [if_neg hpa] at h
      rcases ih l1 x l2 h with ⟨o1, o2, ho, hf1, hf2⟩
      refine ⟨a :: o1, o2, by rw [ho]; rfl, ?_, hf2⟩
      rw [List.filter_cons, if_neg hpa, hf1]

/-- Topological sortedness survives filtering (for dependencies that
survive the filter). -/
theorem topo_sorted_filter (definitions : List (Str × SourceStyleDefinition))
    {o : List Str} (hts : TopoSorted definitions o) (p : Str → Bool) :
    ∀ (l1 : List Str) (x : Str) (l2 : List Str),
      o.filter p = l1 ++ x :: l2 → ∀ d, definitions.lookup x = some d →
      ∀ dep ∈ d.dependencies, (definitions.lookup dep).isSome = true →
      p dep = true → dep ∈ l1 := by
  intro l1 x l2 hsplit d hd dep hdep hdepdef hpdep
  rcases filter_split o l1 x l2 hsplit with ⟨o1, o2, ho, hf1, _⟩
  have hdep1 : dep ∈ o1 := hts o1 x o2 ho d hd dep hdep hdepdef
  rw [← hf1, List.mem_filter]
  exact ⟨hdep1, hpdep⟩

/-! ## Search pipeline

`search_index` (lib.rs).  The SQLite database is abstracted into an oracle
`SearchDb` holding the row lists returned by the six SQL statements of the
pipeline, in result order and after their SQL `LIMIT`/length-window clauses
(the length hypotheses of the theorems encode the `LIMIT` bounds).  Scores
(`f64`) are modelled over `ℚ`.  `Vec::sort_by` is a stable sort and the
output of a stable sort is uniquely determined by the comparator (a total
preorder here), so it is modelled by a stable insertion sort. -/

/-- `fuzzy_threshold` (lib.rs). -/
def fuzzy_threshold (query : Str) : ℚ :=
  let query_len := query.length
  if query_len ≤ 4 then 58 / 100
  else if query_len ≤ 7 then 64 / 100
  else if query_len ≤ 12 then 70 / 100
  else 74 / 100

/-- `tokenize_for_fts` (lib.rs): first 12 normalized tokens, suffixed with
`*`, joined by ` AND `. -/
def tokenize_for_fts (M : CharModel) (query : Str) : Str :=
  List.intercalate " AND ".data
    (((split_whitespace (normalize_for_search M query)).take 12).map
      (fun token => token ++ "*".data))

/-- `file_name_from_relative` (lib.rs), for ordinary forward-slash relative
paths: the component after the last `/`, or the input itself when that is
empty (Rust `Path::file_name` returning `None`). -/
def file_name_from_relative (relative_path : Str) : Str :=
  let name := (relative_path.splitOnP (fun c => c = '/')).getLastD []
  if name.isEmpty then relative_path else name

/-- `SearchHit` (lib.rs). -/
structure SearchHit where
  kind : Str
  fileId : Int
  fileName : Str
  relativePath : Str
  absolutePath : Str
  headingLevel : Option Int
  headingText : Option Str
  headingOrder : Option Int
  score : ℚ
deriving DecidableEq

/-- A row of the heading FTS query (post-`LIMIT`). -/
structure HeadingFtsRow where
  fileId : Int
  relativePath : Str
  absolutePath : Str
  level : Int
  text : Str
  headingOrder : Int
  score : ℚ
deriving DecidableEq

/-- A row of the author FTS query (post-`LIMIT`); `score` is the raw bm25
value before the `+ 400` shift. -/
structure AuthorFtsRow where
  fileId : Int
  relativePath : Str
  absolutePath : Str
  text : Str
  authorOrder : Int
  score : ℚ
deriving DecidableEq

/-- A row of the path-LIKE query or the fuzzy file-candidate query. -/
structure FileRow where
  fileId : Int
  relativePath : Str
  absolutePath : Str
deriving DecidableEq

/-- A row of the fuzzy heading-candidate query (post length window and
`LIMIT`). -/
structure FuzzyHeadingRow where
  fileId : Int
  relativePath : Str
  absolutePath : Str
  level : Int
  text : Str
  headingOrder : Int
deriving DecidableEq

/-- A row of the fuzzy author-candidate query. -/
structure FuzzyAuthorRow where
  fileId : Int
  relativePath : Str
  absolutePath : Str
  text : Str
  authorOrder : Int
deriving DecidableEq

/-- The database oracle: the row lists produced by the six SQL statements
of `search_index`, in result order. -/
structure SearchDb where
  headingRows : List HeadingFtsRow
  authorRows : List AuthorFtsRow
  likeRows : List FileRow
  fuzzyHeadingRows : List FuzzyHeadingRow
  fuzzyFileRows : List FileRow
  fuzzyAuthorRows : List FuzzyAuthorRow

/-- `let max_results = i64::try_from(limit.unwrap_or(120)).unwrap_or(120)
.clamp(10, 400)` (lib.rs); `usize::try_from` back is the identity on
10..=400. -/
def search_max_results (limit : Option Nat) : Nat :=
  let requested := limit.getD 120
  let as_i64 := if requested ≤ 9223372036854775807 then requested else 120
  min (max as_i64 10) 400

/-- The `heading_key` closure (lib.rs). -/
def heading_key (hit : SearchHit) : Option Str :=
  hit.headingText.map fun heading_text =>
    (toString hit.fileId).data ++ ":".data ++
      (toString (hit.headingLevel.getD 0)).data ++ ":".data ++
      (toString (hit.headingOrder.getD 0)).data ++ ":".data ++ heading_text

/-- The `author_key` closure (lib.rs). -/
def author_key (hit : SearchHit) : Option Str :=
  hit.headingText.map fun author_text =>
    (toString hit.fileId).data ++ ":".data ++
      (toString (hit.headingOrder.getD 0)).data ++ ":".data ++ author_text

/-- The mutable state of the pipeline: accumulated results and the three
dedup sets. -/
structure SearchState where
  results : List SearchHit
  seenFileIds : List Int
  seenHeadingKeys : List Str
  seenAuthorKeys : List Str
deriving DecidableEq

/-- `HashSet::insert`, as a no-duplicate list. -/
def insert_set {α : Type} [DecidableEq α] (s : List α) (x : α) : List α :=
  if x ∈ s then s else x :: s

/-- One row of the heading-FTS stage: record the file id and heading key,
push the hit. -/
def search_stage_heading_step (st : SearchState) (row : HeadingFtsRow) :
    SearchState :=
  let hit : SearchHit :=
    { kind := "heading".data, fileId := row.fileId
      fileName := file_name_from_relative row.relativePath
      relativePath := row.relativePath, absolutePath := row.absolutePath
      headingLevel := some row.level, headingText := some row.text
      headingOrder := some row.headingOrder, score := row.score }
  { st with
    seenFileIds := insert_set st.seenFileIds hit.fileId
    seenHeadingKeys :=
      match heading_key hit with
      | some key => insert_set st.seenHeadingKeys key
      | none => st.seenHeadingKeys
    results := st.results ++ [hit] }

/-- The heading-FTS stage of `search_index`. -/
def search_stage_heading (rows : List HeadingFtsRow) (st : SearchState) :
    SearchState :=
  rows.foldl search_stage_heading_step st

/-- One row of the author-FTS stage (`score = bm25 + 400`, dedup on the
author key). -/
def search_stage_author_step (st : SearchState) (row : AuthorFtsRow) :
    SearchState :=
  let hit : SearchHit :=
    { kind := "author".data, fileId := row.fileId
      fileName := file_name_from_relative row.relativePath
      relativePath := row.relativePath, absolutePath := row.absolutePath
      headingLevel := none, headingText := some row.text
      headingOrder := some row.authorOrder, score := row.score + 400 }
  match author_key hit with
  | some key =>
    if key ∈ st.seenAuthorKeys then st
    else
      { st with
        seenAuthorKeys := key :: st.seenAuthorKeys
        seenFileIds := insert_set st.seenFileIds hit.fileId
        results := st.results ++ [hit] }
  | none =>
    { st with
      seenFileIds := insert_set st.seenFileIds hit.fileId
      results := st.results ++ [hit] }

/-- The author-FTS stage of `search_index`. -/
def search_stage_author (rows : List AuthorFtsRow) (st : SearchState) :
    SearchState :=
  rows.foldl search_stage_author_step st

/-- One row of the path-LIKE stage (`score = 9999`, skip seen file ids). -/
def search_stage_like_step (st : SearchState) (row : FileRow) : SearchState :=
  let hit : SearchHit :=
    { kind := "file".data, fileId := row.fileId
      fileName := file_name_from_relative row.relativePath
      relativePath := row.relativePath, absolutePath := row.absolutePath
      headingLevel := none, headingText := none
      headingOrder := none, score := 9999 }
  if row.fileId ∈ st.seenFileIds then st
  else
    { st with
      seenFileIds := row.fileId :: st.seenFileIds
      results := st.results ++ [hit] }

/-- The path-LIKE stage of `search_index`. -/
def search_stage_like (rows : List FileRow) (st : SearchState) : SearchState :=
  rows.foldl search_stage_like_step st

/-- The fuzzy heading candidates (lib.rs): normalized-text similarity or
0.84-weighted path similarity against the threshold; score
`2000 + (1 - s)·1000`. -/
def fuzzy_heading_candidates (M : CharModel) (normalized_query : Str)
    (threshold : ℚ) (rows : List FuzzyHeadingRow) : List SearchHit :=
  rows.foldl (fun acc row =>
    let heading_normalized := normalize_for_search M row.text
    if heading_normalized.isEmpty then acc
    else
      let heading_similarity := fuzzy_similarity normalized_query heading_normalized
      let path_similarity :=
        fuzzy_similarity normalized_query (normalize_for_search M row.relativePath) *
          (84 / 100)
      let similarity := max heading_similarity path_similarity
      if similarity < threshold then acc
      else
        acc ++ [{ kind := "heading".data, fileId := row.fileId
                  fileName := file_name_from_relative row.relativePath
                  relativePath := row.relativePath
                  absolutePath := row.absolutePath
                  headingLevel := some row.level, headingText := some row.text
                  headingOrder := some row.headingOrder
                  score := 2000 + (1 - similarity) * 1000 }]) []

/-- The fuzzy file candidates (lib.rs): path similarity or 0.94-weighted
file-name similarity; score `4000 + (1 - s)·1000`. -/
def fuzzy_file_candidates (M : CharModel) (normalized_query : Str)
    (threshold : ℚ) (rows : List FileRow) : List SearchHit :=
  rows.foldl (fun acc row =>
    let file_name := file_name_from_relative row.relativePath
    let path_similarity :=
      fuzzy_similarity normalized_query (normalize_for_search M row.relativePath)
    let name_similarity :=
      fuzzy_similarity normalized_query (normalize_for_search M file_name) * (94 / 100)
    let similarity := max path_similarity name_similarity
    if similarity < threshold then acc
    else
      acc ++ [{ kind := "file".data, fileId := row.fileId
                fileName := file_name, relativePath := row.relativePath
                absolutePath := row.absolutePath
                headingLevel := none, headingText := none, headingOrder := none
                score := 4000 + (1 - similarity) * 1000 }]) []

/-- The fuzzy author candidates (lib.rs): similarity of the normalized
author text; score `3000 + (1 - s)·1000`. -/
def fuzzy_author_candidates (M : CharModel) (normalized_query : Str)
    (threshold : ℚ) (rows : List FuzzyAuthorRow) : List SearchHit :=
  rows.foldl (fun acc row =>
    let similarity :=
      fuzzy_similarity normalized_query (normalize_for_search M row.text)
    if similarity < threshold then acc
    else
      acc ++ [{ kind := "author".data, fileId := row.fileId
                fileName := file_name_from_relative row.relativePath
                relativePath := row.relativePath
                absolutePath := row.absolutePath
                headingLevel := none, headingText := some row.text
                headingOrder := some row.authorOrder
                score := 3000 + (1 - similarity) * 1000 }]) []

/-- Lexicographic strict order on strings (Rust `String` `Ord`; UTF-8 byte
order coincides with code-point order). -/
def str_lt : Str → Str → Bool
  | [], [] => false
  | [], _ :: _ => true
  | _ :: _, [] => false
  | a :: as, b :: bs => if a < b then true else if b < a then false else str_lt as bs

/-- The fuzzy-batch comparator (lib.rs): score ascending, then relative
path ascending. -/
def fuzzy_le (a b : SearchHit) : Bool :=
  if a.score < b.score then true
  else if b.score < a.score then false
  else !str_lt b.relativePath a.relativePath

/-- Stable insertion into a sorted list (ties keep the earlier element
first). -/
def insert_sorted (le : SearchHit → SearchHit → Bool) (c : SearchHit) :
    List SearchHit → List SearchHit
  | [] => [c]
  | d :: rest =>
    if le d c then d :: insert_sorted le c rest else c :: d :: rest

/-- Stable sort (models `Vec::sort_by`, which is stable; a stable sort's
output is determined by the comparator alone). -/
def sort_hits (le : SearchHit → SearchHit → Bool) (l : List SearchHit) :
    List SearchHit :=
  l.foldl (fun acc c => insert_sorted le c acc) []

/-- The merge loop over the sorted fuzzy batch, stopping at
`max_results`. -/
def fuzzy_merge_loop (max_results : Nat) :
    List SearchHit → SearchState → SearchState
  | [], st => st
  | candidate :: rest, st =>
    if max_results ≤ st.results.length then st
    else if candidate.kind = "file".data then
      if candidate.fileId ∈ st.seenFileIds then fuzzy_merge_loop max_results rest st
      else
        fuzzy_merge_loop max_results rest
          { st with
            seenFileIds := candidate.fileId :: st.seenFileIds
            results := st.results ++ [candidate] }
    else if candidate.kind = "author".data then
      match author_key candidate with
      | some key =>
        if key ∈ st.seenAuthorKeys then fuzzy_merge_loop max_results rest st
        else
          fuzzy_merge_loop max_results rest
            { st with
              seenAuthorKeys := key :: st.seenAuthorKeys
              seenFileIds := insert_set st.seenFileIds candidate.fileId
              results := st.results ++ [candidate] }
      | none =>
        fuzzy_merge_loop max_results rest
          { st with
            seenFileIds := insert_set st.seenFileIds candidate.fileId
            results := st.results ++ [candidate] }
    else
      match heading_key candidate with
      | some key =>
        if key ∈ st.seenHeadingKeys then fuzzy_merge_loop max_results rest st
        else
          fuzzy_merge_loop max_results rest
            { st with
              seenHeadingKeys := key :: st.seenHeadingKeys
              seenFileIds := insert_set st.seenFileIds candidate.fileId
              results := st.results ++ [candidate] }
      | none =>
        fuzzy_merge_loop max_results rest
          { st with
            seenFileIds := insert_set st.seenFileIds candidate.fileId
            results := st.results ++ [candidate] }

/-- The initial pipeline state (`results`/`seen_file_ids`/
`seen_heading_keys`/`seen_author_keys` all start empty). -/
def empty_search_state : SearchState :=
  { results := [], seenFileIds := [], seenHeadingKeys := [], seenAuthorKeys := [] }

/-- The guarded path-LIKE stage: runs only when
`remaining = max_results.saturating_sub(results.len())` is positive. -/
def search_core_stage3 (max_results : Nat) (db : SearchDb) (st2 : SearchState) :
    SearchState :=
  if 0 < max_results - st2.results.length then search_stage_like db.likeRows st2
  else st2

/-- The fuzzy candidate batch, in source order: headings, then files, then
authors. -/
def search_fuzzy_candidates (M : CharModel) (normalized_query : Str)
    (threshold : ℚ) (db : SearchDb) : List SearchHit :=
  fuzzy_heading_candidates M normalized_query threshold db.fuzzyHeadingRows ++
    fuzzy_file_candidates M normalized_query threshold db.fuzzyFileRows ++
    fuzzy_author_candidates M normalized_query threshold db.fuzzyAuthorRows

/-- The guarded fuzzy stage: runs only while short of `max_results`. -/
def search_core_stage4 (M : CharModel) (normalized_query : Str)
    (max_results : Nat) (db : SearchDb) (st3 : SearchState) : SearchState :=
  if st3.results.length < max_results then
    fuzzy_merge_loop max_results
      (sort_hits fuzzy_le
        (search_fuzzy_candidates M normalized_query
          (fuzzy_threshold normalized_query) db)) st3
  else st3

/-- The four-stage pipeline after the guards. -/
def search_core (M : CharModel) (normalized_query : Str) (max_results : Nat)
    (db : SearchDb) : List SearchHit :=
  (search_core_stage4 M normalized_query max_results db
    (search_core_stage3 max_results db
      (search_stage_author db.authorRows
        (search_stage_heading db.headingRows empty_search_state)))).results

/-- `search_index` (lib.rs): the guards (byte-length of the trimmed query,
normalized query, FTS expression) followed by the four-stage pipeline. -/
def search_index (M : CharModel) (query : Str) (limit : Option Nat)
    (db : SearchDb) : Except Str (List SearchHit) :=
  let cleaned_query := rust_trim query
  if utf8_len cleaned_query < 2 then .ok []
  else
    let normalized_query := normalize_for_search M cleaned_query
    if normalized_query.isEmpty then .ok []
    else
      let fts_query := tokenize_for_fts M cleaned_query
      if fts_query.isEmpty then .ok []
      else .ok (search_core M normalized_query (search_max_results limit) db)

/-- The free capacity after the two FTS stages (the `remaining` of
lib.rs), exposed so that the SQL `LIMIT ?3 = remaining` of the path-LIKE
statement can be stated as a hypothesis. -/
def search_remaining (limit : Option Nat) (db : SearchDb) : Nat :=
  search_max_results limit -
    (search_stage_author db.authorRows
      (search_stage_heading db.headingRows empty_search_state)).results.length

theorem foldl_results_len_le {β : Type} (f : SearchState → β → SearchState)
    (hf : ∀ st b, (f st b).results.length ≤ st.results.length + 1) :
    ∀ (rows : List β) (st : SearchState),
      (rows.foldl f st).results.length ≤ st.results.length + rows.length := by
  intro rows
  induction rows with
  | nil => intro st; simp
  | cons r rest ih =>
    intro st
    rw [List.foldl_cons, List.length_cons]
    have h1 := ih (f st r)
    have h2 := hf st r
    omega

theorem search_stage_heading_len (rows : List HeadingFtsRow) (st : SearchState) :
    (search_stage_heading rows st).results.length ≤
      st.results.length + rows.length := by
  apply foldl_results_len_le
  intro st' b
  rw [search_stage_heading_step]
  simp

theorem search_stage_author_len (rows : List AuthorFtsRow) (st : SearchState) :
    (search_stage_author rows st).results.length ≤
      st.results.length + rows.length := by
  apply foldl_results_len_le
  intro st' b
  rw [search_stage_author_step]
  split
  · split
    · omega
    · simp
  · simp

theorem search_stage_like_len (rows : List FileRow) (st : SearchState) :
    (search_stage_like rows st).results.length ≤
      st.results.length + rows.length := by
  apply foldl_results_len_le
  intro st' b
  rw [search_stage_like_step]
  by_cases hb : b.fileId ∈ st'.seenFileIds
  · simp [hb]
  · simp [hb]

theorem fuzzy_merge_loop_len (max_results : Nat) :
    ∀ (candidates : List SearchHit) (st : SearchState),
      (fuzzy_merge_loop max_results candidates st).results.length ≤
        max st.results.length max_results := by
  intro candidates
  induction candidates with
  | nil => intro st; rw [fuzzy_merge_loop]; exact le_max_left _ _
  | cons c rest ih =>
    intro st
    rw [fuzzy_merge_loop]
    by_cases hfull : max_results ≤ st.results.length
    · rw [if_pos hfull]; exact le_max_left _ _
    · rw [if_neg hfull]
      have hlt : st.results.length < max_results := lt_of_not_le hfull
      have hpush : ∀ st' : SearchState,
          st'.results.length ≤ st.results.length + 1 →
          (fuzzy_merge_loop max_results rest st').results.length ≤
            max st.results.length max_results := by
        intro st' hst'
        refine le_trans (ih st') ?_
        have : max st'.results.length max_results ≤ max_results := by
          have : st'.results.length ≤ max_results := by omega
          omega
        omega
      split
      · split
        · exact hpush st (by omega)
        · exact hpush _ (by simp)
      · split
        · split
          · split
            · exact hpush st (by omega)
            · exact hpush _ (by simp)
          · exact hpush _ (by simp)
        · split
          · split
            · exact hpush st (by omega)
            · exact hpush _ (by simp)
          · exact hpush _ (by simp)

/-- The central length bound: the pipeline never returns more than
`2 · max_results` hits (each FTS stage is SQL-limited to `max_results`; the
path stage is limited to the remaining capacity; the fuzzy loop stops at
`max_results`). -/
theorem search_core_stage3_len (max_results : Nat) (db : SearchDb)
    (st2 : SearchState)
    (h2 : st2.results.length ≤ 2 * max_results)
    (h3 : db.likeRows.length ≤ max_results - st2.results.length) :
    (search_core_stage3 max_results db st2).results.length ≤ 2 * max_results ∧
      (st2.results.length ≤ max_results →
        (search_core_stage3 max_results db st2).results.length ≤ max_results) := by
  rw [search_core_stage3]
  by_cases hrem : 0 < max_results - st2.results.length
  · rw [if_pos hrem]
    have hlike := search_stage_like_len db.likeRows st2
    constructor
    · omega
    · intro _; omega
  · rw [if_neg hrem]
    exact ⟨h2, fun h => h⟩

theorem search_core_stage4_len (M : CharModel) (normalized_query : Str)
    (max_results : Nat) (db : SearchDb) (st3 : SearchState)
    (h3 : st3.results.length ≤ 2 * max_results) :
    (search_core_stage4 M normalized_query max_results db st3).results.length ≤
      2 * max_results := by
  rw [search_core_stage4]
  by_cases hfull : st3.results.length < max_results
  · rw [if_pos hfull]
    have := fuzzy_merge_loop_len max_results
      (sort_hits fuzzy_le
        (search_fuzzy_candidates M normalized_query
          (fuzzy_threshold normalized_query) db)) st3
    omega
  · rw [if_neg hfull]
    exact h3

/-- The central length bound: the pipeline never returns more than
`2 · max_results` hits (each FTS stage is SQL-limited to `max_results`; the
path stage is limited to the remaining capacity; the fuzzy loop stops at
`max_results`). -/
theorem search_core_len (M : CharModel) (normalized_query : Str)
    (max_results : Nat) (db : SearchDb)
    (h1 : db.headingRows.length ≤ max_results)
    (h2 : db.authorRows.length ≤ max_results)
    (h3 : db.likeRows.length ≤ max_results -
      (search_stage_author db.authorRows
        (search_stage_heading db.headingRows empty_search_state)).results.length) :
    (search_core M normalized_query max_results db).length ≤ 2 * max_results := by
  rw [search_core]
  have hlen1 := search_stage_heading_len db.headingRows empty_search_state
  have hlen2 := search_stage_author_len db.authorRows
    (search_stage_heading db.headingRows empty_search_state)
  have hempty : empty_search_state.results.length = 0 := rfl
  have hst2 : (search_stage_author db.authorRows
      (search_stage_heading db.headingRows empty_search_state)).results.length ≤
      2 * max_results := by omega
  have hst3 := search_core_stage3_len max_results db
    (search_stage_author db.authorRows
      (search_stage_heading db.headingRows empty_search_state)) hst2 h3
  exact search_core_stage4_len M normalized_query max_results db _ hst3.1

/-! ## Moving a capture heading

`move_capture_heading` (lib.rs) operates on the destination DOCX through
the filesystem; the destination is modelled as an explicit state: the
resolved file path, whether the file exists, the paragraphs returned by
`parse_docx_paragraphs`, the raw `word/document.xml`, and the byte ranges
of its `w:p` nodes as reported by the XML parser.  For a destination whose
`document.xml` is present and parses (which holds whenever heading ranges
are found), `ensure_valid_capture_docx` is a no-op and is therefore not a
separate step of the model.  A successful run rewrites the document; the
result `some xml` carries the rewritten `document.xml`, `none` means the
command returned without writing. -/

/-- Index of the first occurrence of `pat` in `s` (Rust `str::find`). -/
def find_sub (s pat : Str) : Option Nat :=
  (((List.range (s.length + 1)).filter
    (fun i => pat.isPrefixOf (s.drop i)))).head?

/-- `body_bounds` (lib.rs): end of the `<w:body` opening tag and start of
`</w:body>`. -/
def body_bounds (document_xml : Str) : Except Str (Nat × Nat) :=
  match find_sub document_xml "<w:body".data with
  | none => .error "Could not find <w:body> in destination document.xml".data
  | some body_open =>
    match find_sub (document_xml.drop body_open) ">".data with
    | none => .error "Could not parse <w:body> opening tag".data
    | some offset =>
      let body_open_end := body_open + offset + 1
      match rfind_sub document_xml "</w:body>".data with
      | none => .error "Could not find </w:body> in destination document.xml".data
      | some body_close => .ok (body_open_end, body_close)

/-- `fallback_body_insertion_index` (lib.rs): before the last `<w:sectPr`
of the body, else at the body close. -/
def fallback_body_insertion_index (document_xml : Str) : Except Str Nat :=
  match body_bounds document_xml with
  | .error e => .error e
  | .ok (body_open_end, body_close) =>
    let body_slice := (document_xml.drop body_open_end).take (body_close - body_open_end)
    match rfind_sub body_slice "<w:sectPr".data with
    | some section_props_index => .ok (body_open_end + section_props_index)
    | none => .ok body_close

/-- `insertion_index_after_paragraph_count` (lib.rs), with the `w:p` byte
ranges of the (re-parsed) document supplied by the XML-parser oracle. -/
def insertion_index_after_paragraph_count (document_xml : Str)
    (para_ranges : List (Nat × Nat)) (paragraph_count : Nat) : Option Nat :=
  if paragraph_count = 0 then
    match body_bounds document_xml with
    | .ok bounds => some bounds.1
    | .error _ => none
  else
    match para_ranges[paragraph_count - 1]? with
    | none => none
    | some range => if range.2 ≤ document_xml.length then some range.2 else none

/-- `heading_ranges.iter().find(|range| range.order == order)`. -/
def find_heading_range (ranges : List HeadingRange) (order : Int) :
    Option HeadingRange :=
  ranges.find? (fun range => range.order = order)

/-- The destination capture DOCX as seen by `move_capture_heading`. -/
structure DestDocState where
  path : Str
  fileExists : Bool
  paragraphs : List ParsedParagraph
  documentXml : Str
  paraRanges : List (Nat × Nat)

/-- `move_capture_heading` (lib.rs).  `ws_para_ranges` is the XML-parser
oracle for the document after the source section is excised (the function
re-parses the modified document to locate the insertion point). -/
def move_capture_heading (M : CharModel) (st : DestDocState)
    (ws_para_ranges : List (Nat × Nat))
    (source_heading_order target_heading_order : Int) :
    Except Str (Option Str) :=
  if source_heading_order = target_heading_order then .ok none
  else if !st.fileExists then
    .error ("Target capture file does not exist: ".data ++ st.path)
  else
    let heading_ranges := build_heading_ranges M st.paragraphs
    match find_heading_range heading_ranges source_heading_order with
    | none => .error ("Source heading order ".data ++
        (toString source_heading_order).data ++ " not found in target document.".data)
    | some source_range =>
      match find_heading_range heading_ranges target_heading_order with
      | none => .error ("Target heading order ".data ++
          (toString target_heading_order).data ++ " not found in target document.".data)
      | some target_range =>
        if source_range.start_index ≤ target_range.start_index ∧
            target_range.start_index < source_range.end_index then
          .error "Cannot move a heading into its own subtree.".data
        else if st.paraRanges.length ≤ source_range.start_index ∨
            source_range.end_index = 0 ∨
            st.paraRanges.length < source_range.end_index ∨
            st.paraRanges.length ≤ target_range.start_index ∨
            target_range.end_index = 0 ∨
            st.paraRanges.length < target_range.end_index then
          .error "Heading range is out of bounds in destination document.".data
        else
          let source_start := (st.paraRanges.getD source_range.start_index (0, 0)).1
          let source_end := (st.paraRanges.getD (source_range.end_index - 1) (0, 0)).2
          if source_end ≤ source_start ∨ st.documentXml.length < source_end then
            .error "Could not resolve source heading XML range.".data
          else
            let moved_fragment :=
              (st.documentXml.drop source_start).take (source_end - source_start)
            let without_source :=
              st.documentXml.take source_start ++ st.documentXml.drop source_end
            let source_len := source_range.end_index - source_range.start_index
            let insertion_paragraph_count :=
              if source_range.start_index < target_range.end_index then
                target_range.end_index - source_len
              else target_range.end_index
            match fallback_body_insertion_index without_source with
            | .error e => .error e
            | .ok fallback_index =>
              let insertion_index :=
                (insertion_index_after_paragraph_count without_source ws_para_ranges
                  insertion_paragraph_count).getD fallback_index
              .ok (some (without_source.take insertion_index ++ moved_fragment ++
                without_source.drop insertion_index))

/-! ## Inserting a capture

`insert_capture` (lib.rs) touches two stores: a `captures` table row is
inserted first, then `append_capture_to_docx` rewrites the destination
DOCX.  The table is modelled as an explicit row list threaded through the
command; the path canonicalisation/normalisation (OS-dependent) and the
DOCX append (file IO) are abstracted as `Except`-valued inputs.  The
returned pair is the final table plus the command result, so the table's
state is observable even when the command errors. -/

/-- A `captures` row as inserted by `insert_capture`. -/
structure CaptureRow where
  rootId : Int
  sourcePath : Str
  sectionTitle : Str
  targetRelativePath : Str
  headingLevel : Option Int
  content : Str
  createdAtMs : Int
deriving DecidableEq

/-- `capture_marker` (lib.rs): `BF-` followed by the id zero-padded to six
digits. -/
def capture_marker (entry_id : Int) : Str :=
  let digits := (toString entry_id).data
  "BF-".data ++ List.replicate (6 - digits.length) '0' ++ digits

/-- `insert_capture` (lib.rs): reject empty content, resolve paths, insert
the `captures` row, then append to the destination DOCX.  `canonical_root`
models `canonicalize_folder(&root_path)`, `target_norm` models
`normalize_capture_target_path(...)`, and `append_result` models the
outcome of `append_capture_to_docx` (which runs after the row insert). -/
def insert_capture (db : List CaptureRow) (root_id : Int)
    (source_path section_title content : Str)
    (canonical_root : Except Str Str) (target_norm : Except Str Str)
    (heading_level : Option Int) (selected_target_heading_order : Option Int)
    (created_at_ms : Int) (append_result : Except Str Unit) :
    List CaptureRow × Except Str (Str × Str) :=
  if (rust_trim content).isEmpty then
    (db, .error "Cannot insert empty content into capture file.".data)
  else
    match canonical_root with
    | .error e => (db, .error e)
    | .ok _ =>
      match target_norm with
      | .error e => (db, .error e)
      | .ok target_relative_path =>
        let normalized_heading_level :=
          heading_level.filter (fun level => decide (1 ≤ level ∧ level ≤ 9))
        let _normalized_target_heading_order :=
          selected_target_heading_order.filter (fun value => decide (0 < value))
        let row : CaptureRow :=
          { rootId := root_id, sourcePath := source_path
            sectionTitle := section_title
            targetRelativePath := target_relative_path
            headingLevel := normalized_heading_level
            content := content, createdAtMs := created_at_ms }
        let db1 := db ++ [row]
        let capture_id : Int := db1.length
        match append_result with
        | .error e => (db1, .error e)
        | .ok _ => (db1, .ok (capture_marker capture_id, target_relative_path))

/-! ## Idempotence analysis of `normalize_for_search` -/

/-- No two adjacent spaces. -/
def no_adj_spaces (l : Str) : Prop :=
  List.Chain' (fun a b => ¬(a = ' ' ∧ b = ' ')) l

/-- A character kept verbatim by the normalizer: alphanumeric with itself
as its own (single-character) lowercase. -/
def stable_char (M : CharModel) (c : Char) : Prop :=
  M.isAlnum c = true ∧ M.toLower c = [c]

/-- Every character is either stable or a space. -/
def chars_ok (M : CharModel) (l : Str) : Prop :=
  ∀ c ∈ l, stable_char M c ∨ c = ' '

theorem stable_char_ne_space {M : CharModel} (hspace : M.isAlnum ' ' = false)
    {c : Char} (hc : stable_char M c) : c ≠ ' ' := by
  intro he
  subst he
  rcases hc with ⟨h1, _⟩
  rw [hspace] at h1
  cases h1

theorem head?_dropWhile_not (p : Char → Bool) :
    ∀ (l : Str) (a : Char), (l.dropWhile p).head? = some a → p a = false := by
  intro l
  induction l with
  | nil => intro a h; cases h
  | cons c t ih =>
    intro a h
    rw [List.dropWhile_cons] at h
    by_cases hp : p c = true
    · rw [if_pos hp] at h
      exact ih a h
    · rw [if_neg hp] at h
      injection h with h1
      subst h1
      exact Bool.not_eq_true _ |>.mp hp

theorem dropWhile_eq_self_of_head (p : Char → Bool) (l : Str)
    (h : ∀ a, l.head? = some a → p a = false) : l.dropWhile p = l := by
  cases l with
  | nil => rfl
  | cons c t =>
    have hc : p c = false := h c rfl
    rw [List.dropWhile_cons, hc]
    simp

theorem getLast?_of_suffix {z l : Str} (h : z <:+ l) (hz : z ≠ []) :
    z.getLast? = l.getLast? := by
  rcases h with ⟨w, rfl⟩
  rw [List.getLast?_append_of_ne_nil _ hz]

/-- `rust_trim` is the identity on a string whose first and last characters
are not whitespace. -/
theorem rust_trim_eq_self (t : Str)
    (hh : ∀ a, t.head? = some a → rust_is_whitespace a = false)
    (hl : ∀ a, t.getLast? = some a → rust_is_whitespace a = false) :
    rust_trim t = t := by
  rw [rust_trim, dropWhile_eq_self_of_head _ _ hh,
    dropWhile_eq_self_of_head, List.reverse_reverse]
  intro a ha
  rw [List.head?_reverse] at ha
  exact hl a ha

/-- `rust_trim` is idempotent. -/
theorem rust_trim_idem (l : Str) : rust_trim (rust_trim l) = rust_trim l := by
  by_cases hzne : (l.dropWhile rust_is_whitespace).reverse.dropWhile
      rust_is_whitespace = []
  · have h0 : rust_trim l = [] := by
      rw [rust_trim, hzne]
      rfl
    rw [h0]
    rfl
  · apply rust_trim_eq_self
    · intro a ha
      rw [rust_trim, List.head?_reverse] at ha
      rw [getLast?_of_suffix (List.dropWhile_suffix _) hzne,
        List.getLast?_reverse] at ha
      have hyne : l.dropWhile rust_is_whitespace ≠ [] := by
        intro hy
        rw [hy] at hzne
        exact hzne rfl
      cases hy : l.dropWhile rust_is_whitespace with
      | nil => exact absurd hy hyne
      | cons yh yt =>
        rw [hy] at ha
        injection ha with h1
        rw [← h1]
        have := head?_dropWhile_not rust_is_whitespace l yh
        rw [hy] at this
        exact this rfl
    · intro a ha
      rw [rust_trim, List.getLast?_reverse] at ha
      exact head?_dropWhile_not rust_is_whitespace _ a ha

theorem chars_ok_trim {M : CharModel} {l : Str} (h : chars_ok M l) :
    chars_ok M (rust_trim l) := by
  intro c hc
  apply h
  rw [rust_trim] at hc
  rw [List.mem_reverse] at hc
  have hc2 := (List.dropWhile_suffix rust_is_whitespace).sublist.subset hc
  rw [List.mem_reverse] at hc2
  exact (List.dropWhile_suffix rust_is_whitespace).sublist.subset hc2

theorem no_adj_spaces_reverse {l : Str} (h : no_adj_spaces l) :
    no_adj_spaces l.reverse := by
  rw [no_adj_spaces, List.chain'_reverse]
  exact List.Chain'.imp (fun a b hab h' => hab ⟨h'.2, h'.1⟩) h

theorem no_adj_spaces_trim {l : Str} (h : no_adj_spaces l) :
    no_adj_spaces (rust_trim l) := by
  rw [rust_trim]
  apply no_adj_spaces_reverse
  apply List.Chain'.suffix _ (List.dropWhile_suffix rust_is_whitespace)
  apply no_adj_spaces_reverse
  exact List.Chain'.suffix h (List.dropWhile_suffix rust_is_whitespace)

/-- Shape invariant of the `normalize_for_search` loop: the accumulated
output consists of stable characters and single spaces, and the
`previous_space` flag tracks whether the output ends in a space. -/
theorem normalize_fold_shape (M : CharModel) (hspace : M.isAlnum ' ' = false)
    (hstable : ∀ c, M.isAlnum c = true →
      M.toLower c ≠ [] ∧ ∀ d ∈ M.toLower c, M.isAlnum d = true ∧ M.toLower d = [d]) :
    ∀ (s : Str) (acc : Str × Bool),
      chars_ok M acc.1 → no_adj_spaces acc.1 →
      (acc.2 = true ↔ acc.1.getLast? = some ' ') →
      chars_ok M (s.foldl (normalize_step M) acc).1 ∧
        no_adj_spaces (s.foldl (normalize_step M) acc).1 ∧
        ((s.foldl (normalize_step M) acc).2 = true ↔
          (s.foldl (normalize_step M) acc).1.getLast? = some ' ') := by
  intro s
  induction s with
  | nil => intro acc h1 h2 h3; exact ⟨h1, h2, h3⟩
  | cons c s ih =>
    intro acc h1 h2 h3
    rw [List.foldl_cons]
    by_cases hc : M.isAlnum c = true
    · rcases hstable c hc with ⟨hne, hmem⟩
      have hstep : normalize_step M acc c = (acc.1 ++ M.toLower c, false) := by
        rw [normalize_step, if_pos hc]
      rw [hstep]
      apply ih
      · intro d hd
        rcases List.mem_append.mp hd with hd | hd
        · exact h1 d hd
        · exact Or.inl (hmem d hd)
      · rw [no_adj_spaces, List.chain'_append]
        refine ⟨h2, ?_, ?_⟩
        · apply List.Pairwise.chain'
          apply List.pairwise_of_forall_mem_list
          intro a _ b hb hab
          exact stable_char_ne_space hspace (hmem b hb) hab.2
        · intro x _ y hy hxy
          exact stable_char_ne_space hspace
            (hmem y (List.mem_of_mem_head? hy)) hxy.2
      · rw [List.getLast?_append_of_ne_nil _ hne]
        constructor
        · intro hf; cases hf
        · intro hlast
          exfalso
          cases hl : (M.toLower c).getLast? with
          | none =>
            rw [hl] at hlast
            cases hlast
          | some d =>
            rw [hl] at hlast
            injection hlast with hd
            subst hd
            exact stable_char_ne_space hspace
              (hmem _ (List.mem_of_mem_getLast? hl)) rfl
    · by_cases hflag : acc.2 = true
      · have hstep : normalize_step M acc c = acc := by
          rw [normalize_step, if_neg hc, hflag]
          simp
        rw [hstep]
        exact ih acc h1 h2 h3
      · have hstep : normalize_step M acc c = (acc.1 ++ [' '], true) := by
          rw [normalize_step, if_neg hc]
          rw [Bool.not_eq_true] at hflag
          rw [hflag]
          simp
        rw [hstep]
        apply ih
        · intro d hd
          rcases List.mem_append.mp hd with hd | hd
          · exact h1 d hd
          · rw [List.mem_singleton] at hd
            exact Or.inr hd
        · rw [no_adj_spaces, List.chain'_append]
          refine ⟨h2, List.chain'_singleton _, ?_⟩
          intro x hx y hy hxy
          rw [List.head?_cons] at hy
          injection hy with hy
          have : acc.1.getLast? = some ' ' := by
            rw [← hxy.1]
            exact hx
          rw [← h3] at this
          exact hflag this
        · rw [List.getLast?_append_of_ne_nil _ (List.cons_ne_nil _ _)]
          simp

/-- Replaying the normalizer over a string that is already in output shape
(stable characters and isolated spaces) reproduces it verbatim. -/
theorem normalize_replay (M : CharModel) (hspace : M.isAlnum ' ' = false) :
    ∀ (t : Str) (done : Str) (flag : Bool),
      chars_ok M t → no_adj_spaces t →
      (flag = true → t.head? ≠ some ' ') →
      (t.foldl (normalize_step M) (done, flag)).1 = done ++ t := by
  intro t
  induction t with
  | nil => intro done flag _ _ _; simp
  | cons c t ih =>
    intro done flag hchars hadj hflag
    rw [List.foldl_cons]
    have hchars_t : chars_ok M t := fun d hd => hchars d (List.mem_cons_of_mem _ hd)
    have hadj_t : no_adj_spaces t := (List.chain'_cons'.mp hadj).2
    rcases hchars c (List.mem_cons_self _ _) with hstab | hsp
    · have hstep : normalize_step M (done, flag) c = (done ++ [c], false) := by
        rw [normalize_step]
        simp only
        rw [if_pos hstab.1, hstab.2]
      rw [hstep, ih (done ++ [c]) false hchars_t hadj_t (fun h => absurd h (by simp))]
      simp
    · subst hsp
      have hfl : flag = false := by
        cases flag with
        | false => rfl
        | true => exact absurd rfl (hflag rfl)
      have hstep : normalize_step M (done, flag) ' ' = (done ++ [' '], true) := by
        rw [normalize_step]
        simp only
        rw [if_neg (by simp [hspace]), hfl]
        simp
      have hheadt : t.head? ≠ some ' ' := by
        intro hh
        have hrel := (List.chain'_cons'.mp hadj).1
        exact hrel ' ' hh ⟨rfl, rfl⟩
      rw [hstep, ih (done ++ [' ']) true hchars_t hadj_t (fun _ => hheadt)]
      simp

/-- C3 (amended): idempotence of `normalize_for_search` for character
models in which the lowercase expansion of every alphanumeric character is
non-empty and consists of alphanumeric characters that are their own
lowercase, and the space character is not alphanumeric.  (These hold over
ASCII; Unicode violates them at U+0130, see the counterexample.) -/
theorem normalize_for_search_idempotent_of_stable (M : CharModel)
    (hspace : M.isAlnum ' ' = false)
    (hstable : ∀ c, M.isAlnum c = true →
      M.toLower c ≠ [] ∧ ∀ d ∈ M.toLower c, M.isAlnum d = true ∧ M.toLower d = [d])
    (s : Str) :
    normalize_for_search M (normalize_for_search M s) = normalize_for_search M s := by
  have hshape := normalize_fold_shape M hspace hstable s ([], false)
    (fun c hc => absurd hc (List.not_mem_nil c)) List.chain'_nil (by simp)
  rcases hshape with ⟨hchars_u, hadj_u, _⟩
  have hchars_t := chars_ok_trim hchars_u
  have hadj_t := no_adj_spaces_trim hadj_u
  show rust_trim ((normalize_for_search M s).foldl (normalize_step M) ([], false)).1 =
    normalize_for_search M s
  rw [normalize_replay M hspace (normalize_for_search M s) [] false hchars_t hadj_t
    (fun h => absurd h (by simp)), List.nil_append]
  show rust_trim (rust_trim ((s.foldl (normalize_step M) ([], false)).1)) = _
  rw [rust_trim_idem]
  rfl

/-! ## Claim theorems -/

/-- C2 (counterexample): `fuzzy_similarity(s, s)` is not 1.0 for the
non-empty string "a": the containment shortcut fires first and returns
0.96. -/
theorem fuzzy_similarity_self_counterexample :
    ("a".data ≠ ([] : Str)) ∧
      fuzzy_similarity "a".data "a".data ≠ 1 := by
  constructor
  · decide
  · have h : fuzzy_similarity "a".data "a".data = 96 / 100 := by
      rw [fuzzy_similarity, if_neg (by decide), if_pos (by decide)]
    rw [h]
    norm_num

/-- C2 (amended): for every non-empty string s,
`fuzzy_similarity(s, s) = 0.96` (the candidate-contains-query shortcut
fires on equal strings); and for all q, c where neither contains the other,
`fuzzy_similarity` is symmetric. -/
theorem fuzzy_similarity_self_and_symm :
    (∀ s : Str, s ≠ [] → fuzzy_similarity s s = 96 / 100) ∧
    (∀ q c : Str, contains_sub c q = false → contains_sub q c = false →
      fuzzy_similarity q c = fuzzy_similarity c q) := by
  constructor
  · intro s hs
    have h1 : s.isEmpty = false := by
      cases s with
      | nil => exact absurd rfl hs
      | cons a t => rfl
    rw [fuzzy_similarity, if_neg (by rw [h1]; simp), if_pos (contains_sub_self s)]
  · intro q c hcq hqc
    exact fuzzy_similarity_symm q c hcq hqc

/-- C2 (witness): the amended claim at s = "ab" and (q, c) = ("ab", "cd"). -/
theorem fuzzy_similarity_self_and_symm_witness :
    fuzzy_similarity "ab".data "ab".data = 96 / 100 ∧
      fuzzy_similarity "ab".data "cd".data = fuzzy_similarity "cd".data "ab".data :=
  ⟨fuzzy_similarity_self_and_symm.1 "ab".data (by decide),
    fuzzy_similarity_self_and_symm.2 "ab".data "cd".data (by decide) (by decide)⟩

/-- C3 (counterexample): `normalize_for_search` is not idempotent on the
string "İ" (U+0130): its lowercase is "i" followed by U+0307 COMBINING DOT
ABOVE, which is kept on the first pass (it is pushed inside the
alphanumeric branch) but replaced by a space and trimmed away on the
second. -/
theorem normalize_idempotent_counterexample :
    normalize_for_search rustChars (normalize_for_search rustChars "İ".data) ≠
      normalize_for_search rustChars "İ".data := by
  decide

/-- A character model with identity lowercase (every alphanumeric
character is case-stable); instantiates the amended C3 claim. -/
def id_lower_model : CharModel where
  isAlnum c := c.isAlphanum
  toLower c := [c]

/-- C3 (witness): the amended idempotence claim applied to the
case-stable model and the string " Ab, c ". -/
theorem normalize_for_search_idempotent_witness :
    normalize_for_search id_lower_model
        (normalize_for_search id_lower_model " Ab, c ".data) =
      normalize_for_search id_lower_model " Ab, c ".data :=
  normalize_for_search_idempotent_of_stable id_lower_model (by decide)
    (fun c hc => ⟨by simp [id_lower_model], fun d hd => by
      simp only [id_lower_model, List.mem_singleton] at hd
      subst hd
      exact ⟨hc, rfl⟩⟩)
    " Ab, c ".data

/-- The author-suppression scenario text of the specification. -/
def smith_text : Str := "Smith, J., Doe, A., 2014. *Journal of X*, vol 12.".data

/-- The parsed paragraph for the scenario: styled Heading 2, level
detected as 2, then suppressed. -/
def smith_paragraph : ParsedParagraph :=
  { order := 1, text := smith_text
    heading_level := suppress_heading_level rustChars (some 2) smith_text false
    style_label := some "Heading 2 (H2)".data, is_f8_cite := false }

/-- C5: a detected heading level is cleared whenever the paragraph is an
F8-cite or passes the author heuristic; concretely, the Smith/Doe citation
styled as Heading 2 passes `is_probable_author_line`, its level is
cleared, and `extract_docx_headings_and_authors` lists it among authors,
not headings. -/
theorem author_heading_suppression :
    (∀ (M : CharModel) (detected : Option Int) (text : Str) (is_f8 : Bool)
        (level : Int),
      detected = some level →
      (is_probable_author_line M text = true ∨ is_f8 = true) →
      suppress_heading_level M detected text is_f8 = none) ∧
    is_probable_author_line rustChars smith_text = true ∧
    suppress_heading_level rustChars (some 2) smith_text false = none ∧
    (extract_docx_headings_and_authors rustChars [smith_paragraph]).1 = [] ∧
    (extract_docx_headings_and_authors rustChars [smith_paragraph]).2 =
      [(1, smith_text)] := by
  refine ⟨?_, by decide, by decide, by decide, by decide⟩
  intro M detected text is_f8 level hdet hcond
  subst hdet
  rcases hcond with h | h
  · simp [suppress_heading_level, h]
  · simp [suppress_heading_level, h]

/-- C5 (witness): the suppression law applied at the concrete scenario
paragraph. -/
theorem author_heading_suppression_witness :
    suppress_heading_level rustChars (some 2) smith_text false = none :=
  author_heading_suppression.1 rustChars (some 2) smith_text false 2 rfl
    (Or.inl author_heading_suppression.2.1)

/-- Pairwise non-overlap of heading ranges, as claimed by the spec. -/
def RangesDisjoint (ranges : List HeadingRange) : Prop :=
  ranges.Pairwise fun a b =>
    a.end_index ≤ b.start_index ∨ b.end_index ≤ a.start_index

/-- A three-paragraph stream H1, H2, H1 whose first two ranges overlap. -/
def overlap_paragraphs : List ParsedParagraph :=
  [{ order := 1, text := "A".data, heading_level := some 1,
     style_label := none, is_f8_cite := false },
   { order := 2, text := "x".data, heading_level := some 2,
     style_label := none, is_f8_cite := false },
   { order := 3, text := "c".data, heading_level := some 1,
     style_label := none, is_f8_cite := false }]

/-- C9 (counterexample): heading ranges do overlap: for the stream
H1("A"), H2("x"), H1("c") the H1 range [0, 2) and the nested H2 range
[1, 2) share index 1, so the ranges do not tile the stream exactly once. -/
theorem heading_ranges_overlap_counterexample :
    build_heading_ranges rustChars overlap_paragraphs =
      [{ order := 1, level := 1, start_index := 0, end_index := 2 },
       { order := 2, level := 2, start_index := 1, end_index := 2 },
       { order := 3, level := 1, start_index := 2, end_index := 3 }] ∧
    ¬ RangesDisjoint (build_heading_ranges rustChars overlap_paragraphs) := by
  constructor
  · decide
  · rw [RangesDisjoint]
    decide

/-- C9 (amended): the coverage half of the tiling invariant holds: every
paragraph index at or after some heading index is inside at least one
heading range (ranges may overlap — nested sections do). -/
theorem heading_ranges_cover_after_first_heading (M : CharModel)
    (paragraphs : List ParsedParagraph) (i j : Nat)
    (hi : i ∈ heading_indices paragraphs) (hij : i ≤ j)
    (hj : j < paragraphs.length) :
    ∃ r ∈ build_heading_ranges M paragraphs,
      r.start_index ≤ j ∧ j < r.end_index := by
  apply heading_ranges_cover M paragraphs j hj 0 (heading_indices paragraphs)
    (by simp)
  exact ⟨i, hi, hij⟩

/-- C9 (witness): coverage at index 1 of the counterexample stream. -/
theorem heading_ranges_cover_witness :
    ∃ r ∈ build_heading_ranges rustChars overlap_paragraphs,
      r.start_index ≤ 1 ∧ 1 < r.end_index :=
  heading_ranges_cover_after_first_heading rustChars overlap_paragraphs 0 1
    (by decide) (by decide) (by decide)

/-- A heading-FTS result row of the C1 database, indexed by file. -/
def c1_heading_row (i : Int) : HeadingFtsRow :=
  { fileId := i, relativePath := "a.docx".data, absolutePath := "/r/a.docx".data
    level := 1, text := "hello".data, headingOrder := i, score := 0 }

/-- A database for which both FTS stages are full: the heading FTS query
returns its SQL-limited maximum of rows and the author FTS query one more. -/
def c1_db : SearchDb :=
  { headingRows := [c1_heading_row 1, c1_heading_row 2, c1_heading_row 3,
      c1_heading_row 4, c1_heading_row 5, c1_heading_row 6, c1_heading_row 7,
      c1_heading_row 8, c1_heading_row 9, c1_heading_row 10],
    authorRows := [{ fileId := 11, relativePath := "b.docx".data,
                     absolutePath := "/r/b.docx".data,
                     text := "hello a 2001".data,
                     authorOrder := 3, score := 0 }],
    likeRows := [], fuzzyHeadingRows := [], fuzzyFileRows := [],
    fuzzyAuthorRows := [] }

/-- C1 (counterexample): with limit 10 (so clamp(10, 10, 400) = 10) and a
database obeying every SQL LIMIT, `search_index` returns 11 hits: the
author-FTS stage pushes its rows without checking the running count, so the
combined pipeline is not bounded by the single clamp. -/
theorem search_index_limit_counterexample :
    search_max_results (some 10) = 10 ∧
    c1_db.headingRows.length ≤ search_max_results (some 10) ∧
    c1_db.authorRows.length ≤ search_max_results (some 10) ∧
    c1_db.likeRows.length ≤ search_remaining (some 10) c1_db ∧
    Except.map List.length
      (search_index rustChars "hello".data (some 10) c1_db) = .ok 11 := by
  refine ⟨by decide, by decide, by decide, by decide, ?_⟩
  rfl

/-- C1 (amended): under the SQL limits of the pipeline (each FTS query
LIMITed to `max_results`, the path-LIKE query to the remaining capacity),
every successful `search_index` call returns at most
`2 * clamp(limit or 120, 10, 400)` hits.  The single-clamp bound of the
claim fails (see the counterexample). -/
theorem search_index_two_limit_bound (M : CharModel) (query : Str)
    (limit : Option Nat) (db : SearchDb) (res : List SearchHit)
    (h1 : db.headingRows.length ≤ search_max_results limit)
    (h2 : db.authorRows.length ≤ search_max_results limit)
    (h3 : db.likeRows.length ≤ search_remaining limit db)
    (hok : search_index M query limit db = .ok res) :
    res.length ≤ 2 * search_max_results limit := by
  rw [search_remaining] at h3
  simp only [search_index] at hok
  split at hok
  · injection hok with h
    rw [← h]
    simp
  · split at hok
    · injection hok with h
      rw [← h]
      simp
    · split at hok
      · injection hok with h
        rw [← h]
        simp
      · injection hok with h
        rw [← h]
        exact search_core_len M _ _ db h1 h2 h3

/-- C1 (witness): the amended bound at the C1 database with the default
limit. -/
theorem search_index_two_limit_bound_witness :
    (search_core rustChars
        (normalize_for_search rustChars (rust_trim "hello".data))
        (search_max_results none) c1_db).length ≤
      2 * search_max_results none :=
  search_index_two_limit_bound rustChars "hello".data none c1_db
    (search_core rustChars
      (normalize_for_search rustChars (rust_trim "hello".data))
      (search_max_results none) c1_db)
    (by decide) (by decide) (by decide) rfl

/-- A database with one heading-FTS row, for the one-character query. -/
def c4_db : SearchDb :=
  { headingRows := [{ fileId := 1, relativePath := "a.docx".data,
                      absolutePath := "/r/a.docx".data, level := 1,
                      text := "église".data,
                      headingOrder := 1, score := 0 }],
    authorRows := [], likeRows := [], fuzzyHeadingRows := [],
    fuzzyFileRows := [], fuzzyAuthorRows := [] }

/-- C4 (counterexample): the guard compares the UTF-8 byte length, not the
character count: the query "é" has one character after trimming (so the
claim requires an empty result), yet its two-byte encoding passes the guard
and the search returns a hit. -/
theorem search_index_char_guard_counterexample :
    (rust_trim "é".data).length < 2 ∧
    Except.map List.length (search_index rustChars "é".data none c4_db) =
      .ok 1 := by
  exact ⟨by decide, rfl⟩

/-- C4 (amended): for every query whose trimmed form is shorter than 2
UTF-8 bytes, `search_index` returns the empty hit list as a success, not an
error. -/
theorem search_index_byte_guard (M : CharModel) (query : Str)
    (limit : Option Nat) (db : SearchDb)
    (h : utf8_len (rust_trim query) < 2) :
    search_index M query limit db = .ok [] := by
  simp only [search_index]
  rw [if_pos h]

/-- C4 (witness): the byte-length guard at the query " x ". -/
theorem search_index_byte_guard_witness :
    search_index rustChars " x ".data none c4_db = .ok [] :=
  search_index_byte_guard rustChars " x ".data none c4_db (by decide)

/-- The source triple of the C6 scenario: a hyperlink relationship. -/
def c6_hyperlink : RelationshipDef :=
  { rel_type := "hyperlink".data, target := "https://a".data,
    target_mode := some "External".data }

/-- The conflicting destination triple of the C6 scenario: an image
relationship under the same id. -/
def c6_image : RelationshipDef :=
  { rel_type := "image".data, target := "media/img.png".data,
    target_mode := none }

/-- The destination relationship map of the C6 scenario. -/
def c6_target_rels : List (Str × RelationshipDef) :=
  [("rId7".data, c6_image), ("rId4".data, c6_hyperlink)]

/-- The source relationship map of the C6 scenario. -/
def c6_source_rels : List (Str × RelationshipDef) :=
  [("rId7".data, c6_hyperlink)]

/-- The destination relationships XML of the C6 scenario. -/
def c6_dest_xml : Str :=
  "<Relationships><Relationship Id=\"rId7\" Type=\"image\" Target=\"media/img.png\"/><Relationship Id=\"rId4\" Type=\"hyperlink\" Target=\"https://a\" TargetMode=\"External\"/></Relationships>".data

/-- A section paragraph of the C6 scenario, referring to rId7. -/
def c6_section_xml : Str :=
  "<w:p><w:hyperlink r:id=\"rId7\"><w:r><w:t>a</w:t></w:r></w:hyperlink></w:p>".data

/-- C6: when a requested id R is already bound in the destination to a
different triple and some destination id is bound to the source's exact
triple, `merge_relationships` maps R to that id and leaves the destination
relationships XML unchanged; concretely, in the rId7/rId4 scenario of the
specification the remap is rId7 → rId4, the destination XML is returned
unchanged, and `remap_relationship_ids` rewrites the section reference. -/
theorem relationship_remap_to_existing :
    (∀ (target_xml : Str) (target source : List (Str × RelationshipDef))
        (r : Str) (source_def existing_def : RelationshipDef)
        (found : Str × RelationshipDef),
      source.lookup r = some source_def →
      target.lookup r = some existing_def →
      existing_def ≠ source_def →
      target.find? (fun p => p.2 = source_def) = some found →
      merge_relationships target_xml target source [r] =
        (target_xml, [(r, found.1)])) ∧
    merge_relationships c6_dest_xml c6_target_rels c6_source_rels
        ["rId7".data] = (c6_dest_xml, [("rId7".data, "rId4".data)]) ∧
    remap_relationship_ids [c6_section_xml] [("rId7".data, "rId4".data)] =
      ["<w:p><w:hyperlink r:id=\"rId4\"><w:r><w:t>a</w:t></w:r></w:hyperlink></w:p>".data] := by
  refine ⟨?_, by rfl, by rfl⟩
  intro target_xml target source r source_def existing_def found hs ht hne hfind
  have hsrc_ne : source.isEmpty = false := by
    cases source with
    | nil => simp [List.lookup] at hs
    | cons a t => rfl
  rw [merge_relationships]
  rw [if_neg (show ¬(([r] : List Str).isEmpty = true) by simp)]
  rw [if_neg (show ¬(source.isEmpty = true) by rw [hsrc_ne]; simp)]
  simp only [List.foldl_cons, List.foldl_nil, merge_relationships_step, hs, ht,
    hne, hfind, List.nil_append, List.isEmpty_nil, if_true, if_false]

/-- C6 (witness): the general remap-to-existing law applied at the
concrete rId7/rId4 scenario. -/
theorem relationship_remap_to_existing_witness :
    merge_relationships c6_dest_xml c6_target_rels c6_source_rels
        ["rId7".data] = (c6_dest_xml, [("rId7".data, "rId4".data)]) :=
  relationship_remap_to_existing.1 c6_dest_xml c6_target_rels c6_source_rels
    "rId7".data c6_hyperlink c6_image ("rId4".data, c6_hyperlink)
    rfl rfl (by decide) rfl

/-- A cyclic source style table: A depends on B and B on A. -/
def c7_defs_cyclic : List (Str × SourceStyleDefinition) :=
  [("A".data, { xml := "<w:style A/>".data, dependencies := ["B".data] }),
   ("B".data, { xml := "<w:style B/>".data, dependencies := ["A".data] })]

/-- C7 (counterexample): on a cyclic dependency table the collected id
list cannot place every style after its defined dependencies: both A and B
are collected, but whichever comes second has the first as a dependency,
so the appended styles are not dependency-ordered. -/
theorem style_merge_cycle_counterexample :
    "A".data ∈ collect_required_style_ids ["A".data] c7_defs_cyclic ∧
    "B".data ∈ collect_required_style_ids ["A".data] c7_defs_cyclic ∧
    ¬ TopoSorted c7_defs_cyclic
      (collect_required_style_ids ["A".data] c7_defs_cyclic) := by
  obtain ⟨hnodup, hmem, -⟩ := collect_required_style_ids_spec c7_defs_cyclic ["A".data]
  have hA : ReachableStyle c7_defs_cyclic ["A".data] "A".data := .base (by decide)
  have hlookA : c7_defs_cyclic.lookup "A".data =
      some ⟨"<w:style A/>".data, ["B".data]⟩ := by decide
  have hlookB : c7_defs_cyclic.lookup "B".data =
      some ⟨"<w:style B/>".data, ["A".data]⟩ := by decide
  have hB : ReachableStyle c7_defs_cyclic ["A".data] "B".data :=
    .step hA hlookA (by decide)
  have hAmem : "A".data ∈ collect_required_style_ids ["A".data] c7_defs_cyclic :=
    (hmem _).mpr ⟨hA, by decide⟩
  have hBmem : "B".data ∈ collect_required_style_ids ["A".data] c7_defs_cyclic :=
    (hmem _).mpr ⟨hB, by decide⟩
  refine ⟨hAmem, hBmem, ?_⟩
  intro htopo
  obtain ⟨l1, l2, hsplit⟩ := List.append_of_mem hAmem
  have hBl1 : "B".data ∈ l1 :=
    htopo l1 "A".data l2 hsplit _ hlookA "B".data (by decide) (by decide)
  obtain ⟨m1, m2, hsplit2⟩ := List.append_of_mem hBl1
  rw [hsplit2] at hsplit
  have hsplit3 : collect_required_style_ids ["A".data] c7_defs_cyclic =
      m1 ++ "B".data :: (m2 ++ "A".data :: l2) := by
    rw [hsplit]; simp [List.append_assoc]
  have hAm1 : "A".data ∈ m1 :=
    htopo m1 "B".data (m2 ++ "A".data :: l2) hsplit3 _ hlookB "A".data
      (by decide) (by decide)
  rw [hsplit3] at hnodup
  rw [List.nodup_append] at hnodup
  exact hnodup.2.2 hAm1
    (List.mem_cons_of_mem _ (List.mem_append_right _ (List.mem_cons_self _ _)))

/-- C7 (amended): when the destination styles XML has a closing tag,
`merge_missing_styles` splices, just before it, exactly the source XML of
the collected required ids missing from the destination (and returns the
XML unchanged if none is missing); the appended ids are exactly the
reachable defined ids not already present, without duplicates, and — when
the dependency relation is acyclic — each appended style comes after its
appended dependencies.  Under a dependency cycle the ordering clause fails
(see the counterexample). -/
theorem merge_missing_styles_spec
    (target_styles_xml : Str) (definitions : List (Str × SourceStyleDefinition))
    (existing_ids requested : List Str) (styles_close : Nat)
    (hreq : requested ≠ [])
    (hdefs : definitions ≠ [])
    (hclose : rfind_sub target_styles_xml "</w:styles>".data = some styles_close) :
    (((collect_required_style_ids requested definitions).filter
        (fun i => i ∉ existing_ids)) ≠ [] →
      merge_missing_styles target_styles_xml definitions existing_ids requested =
        target_styles_xml.take styles_close ++
          (((collect_required_style_ids requested definitions).filter
              (fun i => i ∉ existing_ids)).map
            (fun i => ((definitions.lookup i).getD default).xml)).flatten ++
          target_styles_xml.drop styles_close) ∧
    (((collect_required_style_ids requested definitions).filter
        (fun i => i ∉ existing_ids)) = [] →
      merge_missing_styles target_styles_xml definitions existing_ids requested =
        target_styles_xml) ∧
    ((collect_required_style_ids requested definitions).filter
        (fun i => i ∉ existing_ids)).Nodup ∧
    (∀ i ∈ (collect_required_style_ids requested definitions).filter
        (fun i => i ∉ existing_ids),
      i ∉ existing_ids ∧ ReachableStyle definitions requested i ∧
        (definitions.lookup i).isSome = true) ∧
    (AcyclicDeps definitions →
      ∀ l1 x l2,
        (collect_required_style_ids requested definitions).filter
          (fun i => i ∉ existing_ids) = l1 ++ x :: l2 →
        ∀ d, definitions.lookup x = some d →
        ∀ dep ∈ d.dependencies, (definitions.lookup dep).isSome = true →
        dep ∉ existing_ids → dep ∈ l1) := by
  obtain ⟨hnodup, hmem, htopo⟩ := collect_required_style_ids_spec definitions requested
  have hdefined : ∀ i ∈ collect_required_style_ids requested definitions,
      (definitions.lookup i).isSome = true := fun i hi => ((hmem i).mp hi).2
  have hfold := merge_styles_fold_spec definitions
    (collect_required_style_ids requested definitions) existing_ids [] hnodup hdefined
  have hreq_ne : ¬(requested.isEmpty = true) := by
    cases requested with
    | nil => exact absurd rfl hreq
    | cons a t => simp
  have hdefs_ne : ¬(definitions.isEmpty = true) := by
    cases definitions with
    | nil => exact absurd rfl hdefs
    | cons a t => simp
  refine ⟨?_, ?_, hnodup.filter _, ?_, ?_⟩
  · intro hmiss_ne
    have hcol_ne : ¬((collect_required_style_ids requested definitions).isEmpty = true) := by
      intro h
      rw [List.isEmpty_iff] at h
      apply hmiss_ne
      rw [h, List.filter_nil]
    have hmap_ne : ¬((((collect_required_style_ids requested definitions).filter
        (fun i => i ∉ existing_ids)).map
          (fun i => ((definitions.lookup i).getD default).xml)).isEmpty = true) := by
      intro h
      rw [List.isEmpty_iff, List.map_eq_nil_iff] at h
      exact hmiss_ne h
    simp only [merge_missing_styles]
    rw [if_neg hreq_ne, if_neg hdefs_ne, if_neg hcol_ne, hfold, List.nil_append,
      if_neg hmap_ne, hclose]
  · intro hmiss_nil
    simp only [merge_missing_styles]
    rw [if_neg hreq_ne, if_neg hdefs_ne]
    by_cases hcol : (collect_required_style_ids requested definitions).isEmpty = true
    · rw [if_pos hcol]
    · rw [if_neg hcol, hfold, List.nil_append, hmiss_nil]
      rfl
  · intro i hi
    rw [List.mem_filter] at hi
    obtain ⟨hi_mem, hi_not⟩ := hi
    have hri := (hmem i).mp hi_mem
    exact ⟨of_decide_eq_true hi_not, hri.1, hri.2⟩
  · intro hacyc l1 x l2 hsplit d hd dep hdep hdepdef hdep_not
    exact topo_sorted_filter definitions (htopo hacyc) _ l1 x l2 hsplit d hd dep
      hdep hdepdef (decide_eq_true hdep_not)

/-- An acyclic source style table: Quote depends on BodyQuote. -/
def c7_defs_acyclic : List (Str × SourceStyleDefinition) :=
  [("Quote".data, { xml := "<w:style Quote/>".data,
                    dependencies := ["BodyQuote".data] }),
   ("BodyQuote".data, { xml := "<w:style BodyQuote/>".data,
                        dependencies := [] })]

/-- A destination styles XML containing only the Normal style; its
`</w:styles>` closing tag starts at index 27. -/
def c7_target_xml : Str := "<w:styles><w:style Normal/></w:styles>".data

/-- C7 (witness): the splice law applied to the acyclic table with Quote
requested and only Normal present in the destination. -/
theorem merge_missing_styles_spec_witness :
    merge_missing_styles c7_target_xml c7_defs_acyclic ["Normal".data]
        ["Quote".data] =
      c7_target_xml.take 27 ++
        (((collect_required_style_ids ["Quote".data] c7_defs_acyclic).filter
            (fun i => i ∉ ["Normal".data])).map
          (fun i => ((c7_defs_acyclic.lookup i).getD default).xml)).flatten ++
        c7_target_xml.drop 27 := by
  have hq : "Quote".data ∈
      (collect_required_style_ids ["Quote".data] c7_defs_acyclic).filter
        (fun i => i ∉ ["Normal".data]) :=
    List.mem_filter.mpr
      ⟨((collect_required_style_ids_spec c7_defs_acyclic ["Quote".data]).2.1
          "Quote".data).mpr ⟨.base (by decide), by decide⟩,
        by decide⟩
  exact (merge_missing_styles_spec c7_target_xml c7_defs_acyclic ["Normal".data]
      ["Quote".data] 27 (by decide) (by decide) (by decide)).1
    (fun h => absurd hq (by rw [h]; exact List.not_mem_nil _))

/-- C8: moving a heading onto itself returns without writing the
destination; and when the target heading starts inside the source
heading's range, the command errors (no rewritten document is produced)
with the subtree message. -/
theorem move_capture_heading_guards :
    (∀ (M : CharModel) (st : DestDocState) (ws : List (Nat × Nat)) (ord : Int),
      move_capture_heading M st ws ord ord = .ok none) ∧
    (∀ (M : CharModel) (st : DestDocState) (ws : List (Nat × Nat))
        (source_order target_order : Int)
        (source_range target_range : HeadingRange),
      source_order ≠ target_order →
      st.fileExists = true →
      find_heading_range (build_heading_ranges M st.paragraphs) source_order =
        some source_range →
      find_heading_range (build_heading_ranges M st.paragraphs) target_order =
        some target_range →
      source_range.start_index ≤ target_range.start_index →
      target_range.start_index < source_range.end_index →
      move_capture_heading M st ws source_order target_order =
        .error "Cannot move a heading into its own subtree.".data) := by
  constructor
  · intro M st ws ord
    rw [move_capture_heading, if_pos rfl]
  · intro M st ws source_order target_order source_range target_range hne hex
      hsr htr h1 h2
    simp only [move_capture_heading, hsr, htr, hex]
    rw [if_neg hne]
    rw [if_neg (show ¬((!true) = true) by decide)]
    rw [if_pos ⟨h1, h2⟩]

/-- A destination capture document with an H1 section containing an H2
subsection. -/
def c8_state : DestDocState :=
  { path := "cap.docx".data, fileExists := true,
    paragraphs := [{ order := 1, text := "H1".data, heading_level := some 1,
                     style_label := none, is_f8_cite := false },
                   { order := 2, text := "H2".data, heading_level := some 2,
                     style_label := none, is_f8_cite := false }],
    documentXml := "<w:document><w:body><w:p>1</w:p><w:p>2</w:p></w:body></w:document>".data,
    paraRanges := [(21, 33), (33, 45)] }

/-- C8 (witness): the guards at the concrete two-heading document: a
self-move of heading 2 returns without writing, and moving heading 1 under
heading 2 (which lies inside heading 1's range) errors. -/
theorem move_capture_heading_guards_witness :
    move_capture_heading rustChars c8_state [] 2 2 = .ok none ∧
    move_capture_heading rustChars c8_state [] 1 2 =
      .error "Cannot move a heading into its own subtree.".data :=
  ⟨move_capture_heading_guards.1 rustChars c8_state [] 2,
    move_capture_heading_guards.2 rustChars c8_state [] 1 2
      { order := 1, level := 1, start_index := 0, end_index := 2 }
      { order := 2, level := 2, start_index := 1, end_index := 2 }
      (by decide) rfl (by decide) (by decide) (by decide) (by decide)⟩

/-- C10: `insert_capture` is not atomic: whenever the content guard and
the two path resolutions succeed but the DOCX append fails, the command
returns the append error while the freshly inserted `captures` row remains
in the table. -/
theorem insert_capture_nonatomic (db : List CaptureRow) (root_id : Int)
    (source_path section_title content : Str)
    (canonical_root target_norm : Except Str Str)
    (croot target_relative_path : Str)
    (heading_level : Option Int) (sel : Option Int) (created_at_ms : Int)
    (e : Str)
    (hcontent : (rust_trim content).isEmpty = false)
    (hcr : canonical_root = .ok croot)
    (htn : target_norm = .ok target_relative_path) :
    insert_capture db root_id source_path section_title content canonical_root
        target_norm heading_level sel created_at_ms (.error e) =
      (db ++ [{ rootId := root_id, sourcePath := source_path,
                sectionTitle := section_title,
                targetRelativePath := target_relative_path,
                headingLevel := heading_level.filter
                  (fun level => decide (1 ≤ level ∧ level ≤ 9)),
                content := content, createdAtMs := created_at_ms }],
        .error e) := by
  simp only [insert_capture]
  rw [if_neg (show ¬((rust_trim content).isEmpty = true) by rw [hcontent]; decide),
    hcr, htn]

/-- C10 (witness): a failing append after a successful row insert leaves
the row in the table and surfaces the append error. -/
theorem insert_capture_nonatomic_witness :
    insert_capture [] 1 "src.docx".data "Sec".data "Text".data
        (.ok "/root".data) (.ok "cap.docx".data) (some 2) none 1000
        (.error "disk full".data) =
      ([{ rootId := 1, sourcePath := "src.docx".data,
          sectionTitle := "Sec".data,
          targetRelativePath := "cap.docx".data,
          headingLevel := some 2,
          content := "Text".data, createdAtMs := 1000 }],
        .error "disk full".data) :=
  insert_capture_nonatomic [] 1 "src.docx".data "Sec".data "Text".data
    (.ok "/root".data) (.ok "cap.docx".data) "/root".data "cap.docx".data
    (some 2) none 1000 "disk full".data (by decide) rfl rfl

end BlockFile
